/-
  Verification of the seating-rotation scheduling engine
  (speed-dating planner: baseline generation, local-search improvement,
  equity enforcement, metrics).

  This file contains a shallow embedding of the engine's Python modules
  (`src/models.py`, `src/validation.py`, `src/baseline.py`,
  `src/meeting_history.py`, `src/metrics.py`, `src/swap_evaluation.py`,
  `src/constraints_validator.py`, `src/improvement.py`, `src/equity.py`,
  `src/planner.py`) followed by theorems about the embedded functions.

  Modelling conventions:
  * Python `set[int]` becomes `Finset ℕ`; where the source iterates over a
    set (`list(table)`), the embedding iterates over `Finset.sort (· ≤ ·)`.
    CPython iterates small-int sets in a deterministic order; the exact
    order is irrelevant to every property proved here.
  * Python exceptions become `Except PyError`; a `try/except ValueError`
    becomes a `match` that turns `.error .valueError` back into a skip.
  * Logging calls are dropped, except that the forced-placement warning of
    `baseline._assign_tables_with_constraints` is modelled as a returned
    Boolean flag (it is the only observable log the spec talks about).
  * `random.seed(seed)` only mutates the process-global RNG, which no part
    of the engine ever reads; hence the embedded functions take the seed
    and ignore it, exactly as the return value of the source does.
  * Python `float` means (for this engine: exact sums divided by lengths)
    are embedded as `ℚ`; no claim depends on rounding.
-/
import Mathlib

/-- Python exception kinds that the engine can raise. -/
inductive PyError
  /-- `InvalidConfigurationError` from `src/validation.py`. -/
  | invalidConfiguration : PyError
  /-- `ValueError` (used by `evaluate_swap` for mis-seated participants). -/
  | valueError : PyError
  /-- `IndexError` (out-of-range list indexing). -/
  | indexError : PyError
deriving DecidableEq, Repr

/-- `PlanningConfig` from `src/models.py`: participants N, tables X,
capacity x, sessions S.  `__post_init__` only enforces non-negativity,
which `ℕ` gives us for free. -/
structure PlanningConfig where
  N : ℕ
  X : ℕ
  x : ℕ
  S : ℕ
deriving DecidableEq, Repr

/-- `Session` from `src/models.py`: a session id and one `Finset` of
participant ids per table. -/
structure Session where
  session_id : ℕ
  tables : List (Finset ℕ)
deriving DecidableEq

/-- `Planning` from `src/models.py`. -/
structure Planning where
  sessions : List Session
  config : PlanningConfig
deriving DecidableEq

/-- `Participant` from `src/models.py`.  The engine reads only `id` and
`is_vip`; display attributes are omitted. -/
structure Participant where
  id : ℕ
  is_vip : Bool
deriving DecidableEq, Repr

/-- `GroupConstraintType` from `src/models.py`. -/
inductive GroupConstraintType
  | must_be_together : GroupConstraintType
  | must_be_separate : GroupConstraintType
deriving DecidableEq, Repr

/-- `GroupConstraint` from `src/models.py`.  Its `__post_init__` requires
`2 ≤ participant_ids.card`; that constructor invariant is carried as an
explicit hypothesis (`ConstraintsWF`) where a proof needs it. -/
structure GroupConstraint where
  name : String
  constraint_type : GroupConstraintType
  participant_ids : Finset ℕ
deriving DecidableEq

/-- `PlanningConstraints` from `src/models.py`. -/
structure PlanningConstraints where
  cohesive_groups : List GroupConstraint
  exclusive_groups : List GroupConstraint
deriving DecidableEq

/-- `VIPMetrics` from `src/models.py`. -/
structure VIPMetrics where
  vip_count : ℕ
  vip_min_unique : ℕ
  vip_max_unique : ℕ
  vip_mean_unique : ℚ
  vip_equity_gap : ℕ
  non_vip_count : ℕ
  non_vip_min_unique : ℕ
  non_vip_max_unique : ℕ
  non_vip_mean_unique : ℚ
  non_vip_equity_gap : ℕ
deriving DecidableEq, Repr

/-- `PlanningMetrics` from `src/models.py` (the `__post_init__` sanity
checks are all vacuous over `ℕ` for the values `compute_metrics` builds). -/
structure PlanningMetrics where
  total_unique_pairs : ℕ
  total_repeat_pairs : ℕ
  unique_meetings_per_person : List ℕ
  min_unique : ℕ
  max_unique : ℕ
  mean_unique : ℚ
  vip_metrics : Option VIPMetrics
deriving DecidableEq, Repr

/-- `PlanningMetrics.equity_gap` property: `max_unique - min_unique`. -/
def PlanningMetrics.equity_gap (m : PlanningMetrics) : ℕ :=
  m.max_unique - m.min_unique

/-- `validate_config` from `src/validation.py`: the five business checks,
in source order. -/
def validate_config (config : PlanningConfig) : Except PyError Unit :=
  if config.N < 2 then .error .invalidConfiguration
  else if config.X < 1 then .error .invalidConfiguration
  else if config.x < 2 then .error .invalidConfiguration
  else if config.S < 1 then .error .invalidConfiguration
  else if config.X * config.x < config.N then .error .invalidConfiguration
  else .ok ()

/-- Tags for the error strings appended by `PlanningConstraints.validate`. -/
inductive ConstraintError
  /-- cohesive group larger than the table capacity `x` -/
  | oversizedCohesive : ConstraintError
  /-- a participant appears in more than one cohesive group -/
  | multiCohesive : ConstraintError
  /-- ≥ 2 members of one cohesive group are also in one exclusive group -/
  | cohesiveExclusiveConflict : ConstraintError
deriving DecidableEq, Repr

/-- First loop of `PlanningConstraints.validate`: walk the cohesive groups
carrying the set of already-seen participant ids, appending an error for
an oversized group and an error for an overlap with earlier groups. -/
def validateCohesiveLoop (x : ℕ) :
    List GroupConstraint → List ConstraintError → Finset ℕ → List ConstraintError
  | [], errs, _ => errs
  | g :: rest, errs, seen =>
      let errs1 := if x < g.participant_ids.card then errs ++ [ConstraintError.oversizedCohesive] else errs
      let errs2 := if (seen ∩ g.participant_ids).Nonempty then errs1 ++ [ConstraintError.multiCohesive] else errs1
      validateCohesiveLoop x rest errs2 (seen ∪ g.participant_ids)

/-- Second loop of `PlanningConstraints.validate`: for every exclusive
group and every cohesive group, an error when they share ≥ 2 members. -/
def validateConflictLoop (cohesive : List GroupConstraint) :
    List GroupConstraint → List ConstraintError → List ConstraintError
  | [], errs => errs
  | eg :: rest, errs =>
      let errs1 := cohesive.foldl
        (fun acc cg =>
          if 2 ≤ (eg.participant_ids ∩ cg.participant_ids).card
          then acc ++ [ConstraintError.cohesiveExclusiveConflict] else acc)
        errs
      validateConflictLoop cohesive rest errs1

/-- `PlanningConstraints.validate` from `src/models.py`: returns the list
of violation messages (their tags), empty iff the constraint set is
acceptable for the given configuration. -/
def PlanningConstraints.validate (c : PlanningConstraints) (config : PlanningConfig) :
    List ConstraintError :=
  validateConflictLoop c.cohesive_groups c.exclusive_groups
    (validateCohesiveLoop config.x c.cohesive_groups [] ∅)

/-- `_violates_exclusive_constraint` from `src/baseline.py`. -/
def _violates_exclusive_constraint (table : Finset ℕ) (new_participants : Finset ℕ)
    (constraints : PlanningConstraints) : Bool :=
  constraints.exclusive_groups.any fun group =>
    let table_members := table ∩ group.participant_ids
    let new_members := new_participants ∩ group.participant_ids
    table_members.Nonempty && new_members.Nonempty && decide (table_members ≠ new_members)

/-- `_create_super_participants` from `src/baseline.py`: cohesive groups
first (as atomic units), then singletons for each unassigned id. -/
def _create_super_participants (N : ℕ) (constraints : Option PlanningConstraints) :
    List (Finset ℕ) :=
  match constraints with
  | none => (List.range N).map fun i => ({i} : Finset ℕ)
  | some c =>
      if c.cohesive_groups.isEmpty then (List.range N).map fun i => ({i} : Finset ℕ)
      else
        let assigned := c.cohesive_groups.foldl (fun acc g => acc ∪ g.participant_ids) ∅
        c.cohesive_groups.map (fun g => g.participant_ids)
          ++ ((List.range N).filter (fun i => i ∉ assigned)).map fun i => ({i} : Finset ℕ)

/-- The `while` loop of `_assign_tables_with_constraints`: starting from
table `tid`, advance to the next table (mod `X`) while the exclusive check
fails, at most `X` times; the Boolean is the forced-placement warning
(`attempts >= config.X` in the source). -/
def seekTable (c : PlanningConstraints) (tables : List (Finset ℕ)) (sp : Finset ℕ)
    (X : ℕ) : ℕ → ℕ → ℕ × Bool
  | 0, tid => (tid, true)
  | fuel + 1, tid =>
      if _violates_exclusive_constraint (tables.getD tid ∅) sp c
      then seekTable c tables sp X fuel ((tid + 1) % X)
      else (tid, false)

/-- The per-unit table choice of `_assign_tables_with_constraints`: the
round-robin target `idx % X`, corrected by the `while` loop when an
exclusive constraint is present (`if constraints and
constraints.exclusive_groups:`); the Boolean is the forced-placement
warning. -/
def pickTable (config : PlanningConfig) (constraints : Option PlanningConstraints)
    (tables : List (Finset ℕ)) (idx : ℕ) (sp : Finset ℕ) : ℕ × Bool :=
  let tid0 := idx % config.X
  match constraints with
  | some c =>
      if c.exclusive_groups.isEmpty then (tid0, false)
      else seekTable c tables sp config.X config.X tid0
  | none => (tid0, false)

/-- The `for idx, sp in enumerate(super_participants)` loop of
`_assign_tables_with_constraints`; the Boolean accumulates whether any
placement was forced. -/
def assignLoop (config : PlanningConfig) (constraints : Option PlanningConstraints) :
    ℕ → List (Finset ℕ) → List (Finset ℕ) × Bool → List (Finset ℕ) × Bool
  | _, [], st => st
  | idx, sp :: rest, st =>
      let picked := pickTable config constraints st.1 idx sp
      assignLoop config constraints (idx + 1) rest
        (st.1.set picked.1 (st.1.getD picked.1 ∅ ∪ sp), st.2 || picked.2)

/-- `_assign_tables_with_constraints` from `src/baseline.py`, also
returning whether any forced placement occurred (the source logs a
warning in that case). -/
def _assign_tables_with_constraints (super_participants : List (Finset ℕ))
    (config : PlanningConfig) (_session_id : ℕ)
    (constraints : Option PlanningConstraints) : List (Finset ℕ) × Bool :=
  assignLoop config constraints 0 super_participants (List.replicate config.X ∅, false)

/-- One session of the baseline: stride rotation then constrained
round-robin distribution (`generate_baseline`'s loop body). -/
def baselineSession (config : PlanningConfig) (sps : List (Finset ℕ))
    (constraints : Option PlanningConstraints) (session_id : ℕ) :
    List (Finset ℕ) × Bool :=
  let L := sps.length
  let stride := if 1 < L then (session_id * 17 + 1) % L else 1
  let rotated := sps.drop stride ++ sps.take stride
  _assign_tables_with_constraints rotated config session_id constraints

/-- `generate_baseline` from `src/baseline.py`.  `seed` is threaded to
`random.seed`, which nothing later reads; it does not influence the
result. -/
def generate_baseline (config : PlanningConfig) (seed : ℕ)
    (constraints : Option PlanningConstraints) : Except PyError Planning :=
  match validate_config config with
  | .error e => .error e
  | .ok () =>
    match constraints with
    | some c =>
        if (c.validate config).isEmpty then
          let _ := seed
          let sps := _create_super_participants config.N constraints
          .ok ⟨(List.range config.S).map
                (fun sid => ⟨sid, (baselineSession config sps constraints sid).1⟩),
               config⟩
        else .error .invalidConfiguration
    | none =>
        let _ := seed
        let sps := _create_super_participants config.N none
        .ok ⟨(List.range config.S).map
              (fun sid => ⟨sid, (baselineSession config sps none sid).1⟩),
             config⟩

/-- Whether any session of the baseline run would force a placement in
spite of an exclusive constraint (i.e. whether the source would log the
`Assignation forcée` warning). -/
def generate_baseline_forced (config : PlanningConfig)
    (constraints : Option PlanningConstraints) : Bool :=
  let sps := _create_super_participants config.N constraints
  (List.range config.S).any fun sid => (baselineSession config sps constraints sid).2

/-- The normalized pair `(min p1 p2, max p1 p2)` used throughout the
engine. -/
def normPair (p1 p2 : ℕ) : ℕ × ℕ := (min p1 p2, max p1 p2)

/-- All normalized pairs of distinct participants sharing one table:
the `for i / for j in range(i+1, ...)` double loop over `list(table)`
produces exactly the pairs `(a, b)` with `a < b`, both at the table. -/
def tablePairs (table : Finset ℕ) : Finset (ℕ × ℕ) :=
  (table ×ˢ table).filter fun q => q.1 < q.2

/-- `compute_meeting_history` from `src/meeting_history.py`: the set of
normalized pairs that share a table in some session. -/
def compute_meeting_history (planning : Planning) : Finset (ℕ × ℕ) :=
  planning.sessions.foldl
    (fun acc session => session.tables.foldl (fun acc2 t => acc2 ∪ tablePairs t) acc) ∅

/-- `pair_counts[pair]` of `compute_metrics`: the number of
(session, table) slots whose table contains both endpoints. -/
def pairTableCount (planning : Planning) (pr : ℕ × ℕ) : ℕ :=
  (planning.sessions.map fun session =>
      session.tables.countP fun t => pr ∈ tablePairs t).sum

/-- Python `min(l)` for a non-empty list (`0` never reached by callers on
an empty list: they guard with truthiness checks first). -/
def listMin : List ℕ → ℕ
  | [] => 0
  | h :: t => t.foldl min h

/-- Python `max(l)` for a non-empty list. -/
def listMax : List ℕ → ℕ
  | [] => 0
  | h :: t => t.foldl max h

/-- Python `sum(l) / len(l)` as an exact rational. -/
def listMean (l : List ℕ) : ℚ :=
  (l.sum : ℚ) / (l.length : ℚ)

/-- The indexing `arr[i]` of a Python list, raising `IndexError` when out
of range. -/
def pyIndex (arr : List ℕ) (i : ℕ) : Except PyError ℕ :=
  match arr[i]? with
  | some v => .ok v
  | none => .error .indexError

/-- `_compute_vip_metrics` from `src/metrics.py`.  The indexing
`unique_meetings_per_person[p.id]` raises `IndexError` for an id outside
the roster array. -/
def _compute_vip_metrics (unique_meetings_per_person : List ℕ)
    (participants : List Participant) : Except PyError (Option VIPMetrics) :=
  let vip_participants := participants.filter (·.is_vip)
  let non_vip_participants := participants.filter fun p => !p.is_vip
  if vip_participants.isEmpty then .ok none
  else
    match vip_participants.mapM (fun p => pyIndex unique_meetings_per_person p.id) with
    | .error e => .error e
    | .ok vip_meetings =>
      let vip_min := listMin vip_meetings
      let vip_max := listMax vip_meetings
      let vip_mean := listMean vip_meetings
      let cont : ℕ → ℕ → ℚ → ℕ → Except PyError (Option VIPMetrics) :=
        fun non_vip_min non_vip_max non_vip_mean non_vip_gap =>
        Except.ok (some
          { vip_count := vip_participants.length
            vip_min_unique := vip_min
            vip_max_unique := vip_max
            vip_mean_unique := vip_mean
            vip_equity_gap := vip_max - vip_min
            non_vip_count := non_vip_participants.length
            non_vip_min_unique := non_vip_min
            non_vip_max_unique := non_vip_max
            non_vip_mean_unique := non_vip_mean
            non_vip_equity_gap := non_vip_gap })
      if non_vip_participants.isEmpty then cont 0 0 0 0
      else
        match non_vip_participants.mapM (fun p => pyIndex unique_meetings_per_person p.id) with
        | .error e => .error e
        | .ok nv => cont (listMin nv) (listMax nv) (listMean nv) (listMax nv - listMin nv)

/-- `compute_metrics` from `src/metrics.py`.  The per-person tally loop
`unique_meetings_per_person[p] += 1` raises `IndexError` as soon as a pair
endpoint is `≥ N`; when every endpoint is in range the loop computes the
degree of each participant in the meeting-history graph (the increment
order is unobservable). -/
def compute_metrics (planning : Planning) (config : PlanningConfig)
    (participants : Option (List Participant)) : Except PyError PlanningMetrics :=
  let mh := compute_meeting_history planning
  let total_unique_pairs := mh.card
  let total_repeat_pairs := (mh.filter fun pr => 2 ≤ pairTableCount planning pr).card
  if ∀ pr ∈ mh, pr.1 < config.N ∧ pr.2 < config.N then
    let arr := (List.range config.N).map fun i =>
      (mh.filter fun pr => pr.1 = i ∨ pr.2 = i).card
    let min_unique := if arr.isEmpty then 0 else listMin arr
    let max_unique := if arr.isEmpty then 0 else listMax arr
    let mean_unique := if arr.isEmpty then 0 else listMean arr
    let vip :=
      match participants with
      | some ps => if 0 < ps.length then _compute_vip_metrics arr ps else .ok none
      | none => .ok none
    match vip with
    | .error e => .error e
    | .ok vip_metrics =>
        .ok { total_unique_pairs := total_unique_pairs
              total_repeat_pairs := total_repeat_pairs
              unique_meetings_per_person := arr
              min_unique := min_unique
              max_unique := max_unique
              mean_unique := mean_unique
              vip_metrics := vip_metrics }
  else .error .indexError

/-- `_count_table_repeats` from `src/swap_evaluation.py`: the number of
normalized pairs at the table that are in the meeting history. -/
def _count_table_repeats (table : Finset ℕ) (met_pairs : Finset (ℕ × ℕ)) : ℕ :=
  ((tablePairs table).filter fun pr => pr ∈ met_pairs).card

/-- `evaluate_swap` from `src/swap_evaluation.py`: pure evaluation of the
repeat-count delta of exchanging `p1` (table `table1_id`) with `p2`
(table `table2_id`) in session `session_id`. -/
def evaluate_swap (planning : Planning) (session_id table1_id p1 table2_id p2 : ℕ)
    (met_pairs : Finset (ℕ × ℕ)) : Except PyError ℤ :=
  match planning.sessions[session_id]? with
  | none => .error .indexError
  | some session =>
    match session.tables[table1_id]? with
    | none => .error .indexError
    | some table1 =>
      match session.tables[table2_id]? with
      | none => .error .indexError
      | some table2 =>
        if p1 ∉ table1 then .error .valueError
        else if p2 ∉ table2 then .error .valueError
        else
          let repeats_before := _count_table_repeats table1 met_pairs
            + _count_table_repeats table2 met_pairs
          let new_table1 := (table1.erase p1) ∪ {p2}
          let new_table2 := (table2.erase p2) ∪ {p1}
          let repeats_after := _count_table_repeats new_table1 met_pairs
            + _count_table_repeats new_table2 met_pairs
          .ok ((repeats_after : ℤ) - (repeats_before : ℤ))

/-- `evaluate_swap`, with the state of its `planning` argument threaded
explicitly: every operation of the source either reads `planning` or
builds fresh local sets, so the returned state is the input state.  The
first component is the source's return value (or exception). -/
def evaluate_swap_state (planning : Planning) (session_id table1_id p1 table2_id p2 : ℕ)
    (met_pairs : Finset (ℕ × ℕ)) : Except PyError ℤ × Planning :=
  (evaluate_swap planning session_id table1_id p1 table2_id p2 met_pairs, planning)

/-- `validate_swap_constraints` from `src/constraints_validator.py`
(identical to the private `_swap_violates_constraints` of
`src/improvement.py`): `true` iff exchanging `p1` (table `table1_id`)
with `p2` (table `table2_id`) would split a cohesive group or co-locate
two members of an exclusive group. -/
def validate_swap_constraints (session : Session) (table1_id p1 table2_id p2 : ℕ)
    (constraints : PlanningConstraints) : Bool :=
  let table1_after := ((session.tables.getD table1_id ∅) \ {p1}) ∪ {p2}
  let table2_after := ((session.tables.getD table2_id ∅) \ {p2}) ∪ {p1}
  (constraints.cohesive_groups.any fun group =>
      (decide (p1 ∈ group.participant_ids) && !(decide (group.participant_ids ⊆ table2_after)))
      || (decide (p2 ∈ group.participant_ids) && !(decide (group.participant_ids ⊆ table1_after))))
  || (constraints.exclusive_groups.any fun group =>
      decide (2 ≤ (table1_after ∩ group.participant_ids).card)
      || decide (2 ≤ (table2_after ∩ group.participant_ids).card))

/-- `_apply_swap` from `src/improvement.py` (also the inline swap of
`equity._try_swap_participants`, which performs the same four
`remove`/`add` calls): exchange `p1` and `p2` between tables `table1_id`
and `table2_id` of a session. -/
def _apply_swap (session : Session) (table1_id p1 table2_id p2 : ℕ) : Session :=
  let table1 := session.tables.getD table1_id ∅
  let table2 := session.tables.getD table2_id ∅
  let tablesA := session.tables.set table1_id ((table1.erase p1) ∪ {p2})
  let tablesB := tablesA.set table2_id ((table2.erase p2) ∪ {p1})
  ⟨session.session_id, tablesB⟩

/-- Replace session number `sid` of a planning by `f` applied to it. -/
def updateSession (planning : Planning) (sid : ℕ) (f : Session → Session) : Planning :=
  ⟨planning.sessions.set sid (f (planning.sessions.getD sid ⟨0, []⟩)), planning.config⟩

/-- The `(table1_id, table2_id)` pairs visited by `_improve_session`:
`for table1_id in range(L): for table2_id in range(table1_id+1, L)`. -/
def tableIndexPairs (L : ℕ) : List (ℕ × ℕ) :=
  (List.range L).flatMap fun i => ((List.range L).filter fun j => i < j).map fun j => (i, j)

/-- The Python guard `constraints and _swap_violates_constraints(...)` /
`constraints and validate_swap_constraints(...)`: `false` when no
constraint set is given. -/
def swapBlocked (copt : Option PlanningConstraints) (session : Session)
    (table1_id p1 table2_id p2 : ℕ) : Bool :=
  match copt with
  | some c => validate_swap_constraints session table1_id p1 table2_id p2 c
  | none => false

/-- Innermost body of `_improve_session`: for one candidate pair
`(p1, p2)` check constraints, evaluate, and greedily apply an improving
swap.  A `ValueError` (participant moved earlier in this pass) is caught
and skipped, exactly like the source's `try/except ValueError`. -/
def improvePairStep (met_pairs : Finset (ℕ × ℕ)) (constraints : Option PlanningConstraints)
    (session_id table1_id table2_id : ℕ) (st : Planning × ℕ) (p1 p2 : ℕ) :
    Except PyError (Planning × ℕ) :=
  let session := st.1.sessions.getD session_id ⟨0, []⟩
  if swapBlocked constraints session table1_id p1 table2_id p2 then .ok st
  else
    match evaluate_swap st.1 session_id table1_id p1 table2_id p2 met_pairs with
    | .error .valueError => .ok st
    | .error e => .error e
    | .ok delta =>
        if delta < 0 then
          .ok (updateSession st.1 session_id
                (fun s => _apply_swap s table1_id p1 table2_id p2), st.2 + 1)
        else .ok st

/-- One `(table1_id, table2_id)` pass of `_improve_session`: snapshot both
tables, then walk every participant pair of the snapshots. -/
def improveTablePair (met_pairs : Finset (ℕ × ℕ)) (constraints : Option PlanningConstraints)
    (session_id : ℕ) (st : Planning × ℕ) (tp : ℕ × ℕ) :
    Except PyError (Planning × ℕ) :=
  let session := st.1.sessions.getD session_id ⟨0, []⟩
  let table1_participants := Finset.sort (· ≤ ·) (session.tables.getD tp.1 ∅)
  let table2_participants := Finset.sort (· ≤ ·) (session.tables.getD tp.2 ∅)
  table1_participants.foldlM
    (fun st1 p1 =>
      table2_participants.foldlM
        (fun st2 p2 => improvePairStep met_pairs constraints session_id tp.1 tp.2 st2 p1 p2)
        st1)
    st

/-- `_improve_session` from `src/improvement.py`, returning the updated
planning and the number of swaps applied in this session. -/
def _improve_session (planning : Planning) (session_id : ℕ)
    (met_pairs : Finset (ℕ × ℕ)) (constraints : Option PlanningConstraints) :
    Except PyError (Planning × ℕ) :=
  let L := (planning.sessions.getD session_id ⟨0, []⟩).tables.length
  (tableIndexPairs L).foldlM (improveTablePair met_pairs constraints session_id) (planning, 0)

/-- One iteration of `improve_planning`'s outer loop: recompute the
meeting history, then improve every session in order, summing the counts
of applied swaps. -/
def improveIteration (planning : Planning) (constraints : Option PlanningConstraints) :
    Except PyError (Planning × ℕ) :=
  let met_pairs := compute_meeting_history planning
  (List.range planning.sessions.length).foldlM
    (fun st sid =>
      match _improve_session st.1 sid met_pairs constraints with
      | .error e => .error e
      | .ok r => .ok (r.1, st.2 + r.2))
    (planning, 0)

/-- The `for iteration in range(max_iterations)` loop of
`improve_planning`, with the 5-iteration plateau early exit. -/
def improveLoop (constraints : Option PlanningConstraints) :
    ℕ → Planning → ℕ → Except PyError Planning
  | 0, optimized, _ => .ok optimized
  | fuel + 1, optimized, plateau_counter =>
    match improveIteration optimized constraints with
    | .error e => .error e
    | .ok r =>
        let plateau2 := if 0 < r.2 then 0 else plateau_counter + 1
        if 5 ≤ plateau2 then .ok r.1 else improveLoop constraints fuel r.1 plateau2

/-- `improve_planning` from `src/improvement.py`: greedy local search,
then the non-regression check — if the optimization worsened the equity
gap, the original input planning is returned unchanged. -/
def improve_planning (planning : Planning) (config : PlanningConfig)
    (max_iterations : ℕ) (constraints : Option PlanningConstraints) :
    Except PyError Planning :=
  match compute_metrics planning config none with
  | .error e => .error e
  | .ok initial_metrics =>
    match improveLoop constraints max_iterations planning 0 with
    | .error e => .error e
    | .ok optimized =>
      match compute_metrics optimized config none with
      | .error e => .error e
      | .ok final_metrics =>
          if initial_metrics.equity_gap < final_metrics.equity_gap then .ok planning
          else .ok optimized

/-- `_find_over_exposed` from `src/equity.py`. -/
def _find_over_exposed (metrics : PlanningMetrics) : List ℕ :=
  (metrics.unique_meetings_per_person.enum.filter fun e => e.2 = metrics.max_unique).map
    fun e => e.1

/-- `_find_under_exposed` from `src/equity.py`. -/
def _find_under_exposed (metrics : PlanningMetrics) : List ℕ :=
  (metrics.unique_meetings_per_person.enum.filter fun e => e.2 = metrics.min_unique).map
    fun e => e.1

/-- The table-scan of `_try_swap_participants`: the last table containing
`p` wins, like the overwriting assignment in the source's `for` loop. -/
def findTableOf (tables : List (Finset ℕ)) (p : ℕ) : Option ℕ :=
  (List.range tables.length).foldl
    (fun acc tid => if p ∈ tables.getD tid ∅ then some tid else acc) none

/-- `_try_swap_participants` from `src/equity.py`: scan the sessions for
one where `p_over` and `p_under` sit at different tables and exchanging
them has a positive equity-improvement score and violates no constraint;
apply the first such swap. -/
def _try_swap_participants (planning : Planning) (p_over p_under : ℕ)
    (met_pairs : Finset (ℕ × ℕ)) (_config : PlanningConfig)
    (constraints : Option PlanningConstraints) : Option Planning :=
  (List.range planning.sessions.length).findSome? fun session_id =>
    let session := planning.sessions.getD session_id ⟨0, []⟩
    match findTableOf session.tables p_over, findTableOf session.tables p_under with
    | some table_over_id, some table_under_id =>
      if table_over_id = table_under_id then none
      else
        let table_over := session.tables.getD table_over_id ∅
        let table_under := session.tables.getD table_under_id ∅
        let over_loses := table_over \ {p_over}
        let over_gains := table_under \ {p_under}
        let under_loses := table_under \ {p_under}
        let under_gains := table_over \ {p_over}
        let over_unique_lost := (over_loses.filter fun p => normPair p_over p ∉ met_pairs).card
        let over_unique_gained := (over_gains.filter fun p => normPair p_over p ∉ met_pairs).card
        let under_unique_lost := (under_loses.filter fun p => normPair p_under p ∉ met_pairs).card
        let under_unique_gained := (under_gains.filter fun p => normPair p_under p ∉ met_pairs).card
        let over_delta : ℤ := (over_unique_gained : ℤ) - (over_unique_lost : ℤ)
        let under_delta : ℤ := (under_unique_gained : ℤ) - (under_unique_lost : ℤ)
        let equity_improvement := under_delta - over_delta
        if 0 < equity_improvement then
          if swapBlocked constraints session table_over_id p_over table_under_id p_under
          then none
          else some (updateSession planning session_id
                      fun s => _apply_swap s table_over_id p_over table_under_id p_under)
        else none
    | _, _ => none

/-- The VIP id set `{p.id for p in participants if p.is_vip}`. -/
def vipIdSet (participants : List Participant) : Finset ℕ :=
  (participants.filter (·.is_vip)).foldl (fun acc p => insert p.id acc) ∅

/-- The VIP-priority block of `enforce_equity`: compute the candidate
`(under_list, over_list)` pairs in priority order.  Reading
`unique_meetings_per_person[p.id]` raises `IndexError` for an id outside
the array. -/
def equitySwapPriorities (metrics : PlanningMetrics)
    (participants : Option (List Participant)) (vip_max_advantage : ℕ)
    (over_exposed under_exposed : List ℕ) :
    Except PyError (List (List ℕ × List ℕ)) :=
  match participants with
  | none => .ok [(under_exposed, over_exposed)]
  | some ps =>
    if ps.isEmpty then .ok [(under_exposed, over_exposed)]
    else
      let vip_ids := vipIdSet ps
      match (ps.filter (·.is_vip)).mapM
          (fun p => pyIndex metrics.unique_meetings_per_person p.id) with
      | .error e => .error e
      | .ok vip_meetings =>
        match (ps.filter fun p => !p.is_vip).mapM
            (fun p => pyIndex metrics.unique_meetings_per_person p.id) with
        | .error e => .error e
        | .ok non_vip_meetings =>
          let vip_advantage_ok :=
            if !vip_meetings.isEmpty && !non_vip_meetings.isEmpty then
              decide ((listMin vip_meetings : ℤ) - (listMin non_vip_meetings : ℤ)
                < (vip_max_advantage : ℤ))
            else true
          let over_vip := over_exposed.filter fun p => p ∈ vip_ids
          let over_regular := over_exposed.filter fun p => p ∉ vip_ids
          let under_vip := under_exposed.filter fun p => p ∈ vip_ids
          let under_regular := under_exposed.filter fun p => p ∉ vip_ids
          if vip_advantage_ok && !under_vip.isEmpty then
            .ok [(under_vip, over_regular), (under_vip, over_vip),
                 (under_regular, over_exposed)]
          else .ok [(under_exposed, over_exposed)]

/-- The triple `for`/`break` search of `enforce_equity`: first successful
swap in priority order wins. -/
def equitySearchSwap (planning : Planning) (priorities : List (List ℕ × List ℕ))
    (met_pairs : Finset (ℕ × ℕ)) (config : PlanningConfig)
    (constraints : Option PlanningConstraints) : Option Planning :=
  priorities.findSome? fun pr =>
    pr.1.findSome? fun p_under =>
      pr.2.findSome? fun p_over =>
        _try_swap_participants planning p_over p_under met_pairs config constraints

/-- The update of `recent_gaps` at the head of an `enforce_equity`
iteration: `recent_gaps.append(gap)` followed by `pop(0)` once the length
exceeds the 10-element detection window. -/
def gapWindow (recent_gaps : List ℕ) (gap : ℕ) : List ℕ :=
  let appended := recent_gaps ++ [gap]
  if 10 < appended.length then appended.tail else appended

/-- The oscillation test of `enforce_equity`: a full 10-element window
holding at most 2 distinct values whose oldest entry recurs ≥ 3 times
(`len(recent_gaps) >= cycle_detection_window`, `len(set(recent_gaps)) <= 2`
and `recent_gaps.count(recent_gaps[0]) >= 3`). -/
def oscillationDetected (window : List ℕ) : Prop :=
  10 ≤ window.length ∧ window.toFinset.card ≤ 2 ∧ 3 ≤ window.count (window.headD 0)

instance (window : List ℕ) : Decidable (oscillationDetected window) := by
  unfold oscillationDetected; infer_instance

/-- The `while iteration < 1000` loop of `enforce_equity`, by fuel.
`recent_gaps` is the sliding window of the last 10 observed equity gaps.
Besides the final planning it returns the list of every equity gap the
loop observed (in order), so that statements about "the best plan seen
during the run" can be made; the gap list is invisible to callers of
`enforce_equity` (see `equityLoop_eq_full`). -/
def equityLoopFull (config : PlanningConfig) (constraints : Option PlanningConstraints)
    (participants : Option (List Participant)) (vip_max_advantage : ℕ) :
    ℕ → Planning → List ℕ → Except PyError (Planning × List ℕ)
  | 0, equitable, _ =>
    match compute_metrics equitable config none with
    | .error e => .error e
    | .ok _ => .ok (equitable, [])
  | fuel + 1, equitable, recent_gaps =>
    match compute_metrics equitable config none with
    | .error e => .error e
    | .ok metrics =>
      let met_pairs := compute_meeting_history equitable
      if metrics.equity_gap ≤ 1 then .ok (equitable, [metrics.equity_gap])
      else
        let window := gapWindow recent_gaps metrics.equity_gap
        if oscillationDetected window then
          .ok (equitable, [metrics.equity_gap])
        else
          let over_exposed := _find_over_exposed metrics
          let under_exposed := _find_under_exposed metrics
          match equitySwapPriorities metrics participants vip_max_advantage
              over_exposed under_exposed with
          | .error e => .error e
          | .ok priorities =>
            match equitySearchSwap equitable priorities met_pairs config constraints with
            | some p2 =>
                match equityLoopFull config constraints participants vip_max_advantage
                    fuel p2 window with
                | .error e => .error e
                | .ok r => .ok (r.1, metrics.equity_gap :: r.2)
            | none => .ok (equitable, [metrics.equity_gap])

/-- The `while` loop of `enforce_equity` (the caller-visible part of
`equityLoopFull`). -/
def equityLoop (config : PlanningConfig) (constraints : Option PlanningConstraints)
    (participants : Option (List Participant)) (vip_max_advantage : ℕ)
    (fuel : ℕ) (equitable : Planning) (recent_gaps : List ℕ) :
    Except PyError Planning :=
  match equityLoopFull config constraints participants vip_max_advantage
      fuel equitable recent_gaps with
  | .error e => .error e
  | .ok r => .ok r.1

/-- `enforce_equity` from `src/equity.py`. -/
def enforce_equity (planning : Planning) (config : PlanningConfig)
    (constraints : Option PlanningConstraints)
    (participants : Option (List Participant)) (vip_max_advantage : ℕ) :
    Except PyError Planning :=
  equityLoop config constraints participants vip_max_advantage 1000 planning []

/-- `generate_optimized_planning` from `src/planner.py`: validation,
baseline, conditional local search (skipped when `N ≥ 50`), equity
enforcement, final metrics.  The intermediate metrics are computed (their
exceptions propagate) but only logged. -/
def generate_optimized_planning (config : PlanningConfig) (seed : ℕ)
    (constraints : Option PlanningConstraints)
    (participants : Option (List Participant)) :
    Except PyError (Planning × PlanningMetrics) :=
  match validate_config config with
  | .error e => .error e
  | .ok () =>
    let constraintsOk :=
      match constraints with
      | some c => (c.validate config).isEmpty
      | none => true
    if constraintsOk then
      match generate_baseline config seed constraints with
      | .error e => .error e
      | .ok baseline =>
        match compute_metrics baseline config participants with
        | .error e => .error e
        | .ok _metrics_baseline =>
          let improvedE :=
            if 50 ≤ config.N then .ok baseline
            else
              improve_planning baseline config (if config.N < 20 then 50 else 20)
                constraints
          match improvedE with
          | .error e => .error e
          | .ok improved =>
            match compute_metrics improved config participants with
            | .error e => .error e
            | .ok _metrics_improved =>
              match enforce_equity improved config constraints participants 2 with
              | .error e => .error e
              | .ok equitable =>
                match compute_metrics equitable config participants with
                | .error e => .error e
                | .ok metrics_final => .ok (equitable, metrics_final)
    else .error .invalidConfiguration

/-! ## Invariant vocabulary used by the theorems -/

/-- The tables of one round are pairwise disjoint. -/
def TablesDisjoint (ts : List (Finset ℕ)) : Prop :=
  ∀ i < ts.length, ∀ j < ts.length, i ≠ j → Disjoint (ts.getD i ∅) (ts.getD j ∅)

/-- The union of the tables of one round. -/
def unionTables (ts : List (Finset ℕ)) : Finset ℕ :=
  ts.foldr (· ∪ ·) ∅

/-- A round is a partition of the full roster `{0, …, N-1}`. -/
def SessionPartition (s : Session) (N : ℕ) : Prop :=
  TablesDisjoint s.tables ∧ unionTables s.tables = Finset.range N

/-- Every cohesive (Together) group sits inside a single table. -/
def RespectsCohesive (s : Session) (c : PlanningConstraints) : Prop :=
  ∀ g ∈ c.cohesive_groups, ∃ t ∈ s.tables, g.participant_ids ⊆ t

/-- No two members of an exclusive (Separate) group share a table. -/
def RespectsExclusive (s : Session) (c : PlanningConstraints) : Prop :=
  ∀ g ∈ c.exclusive_groups, ∀ t ∈ s.tables, (t ∩ g.participant_ids).card ≤ 1

/-- The constructor invariant of `GroupConstraint.__post_init__`:
every group names at least two participants. -/
def ConstraintsWF (c : PlanningConstraints) : Prop :=
  (∀ g ∈ c.cohesive_groups, 2 ≤ g.participant_ids.card)
  ∧ ∀ g ∈ c.exclusive_groups, 2 ≤ g.participant_ids.card

instance (ts : List (Finset ℕ)) : Decidable (TablesDisjoint ts) := by
  unfold TablesDisjoint; infer_instance

instance (s : Session) (N : ℕ) : Decidable (SessionPartition s N) := by
  unfold SessionPartition; infer_instance

instance (s : Session) (c : PlanningConstraints) : Decidable (RespectsCohesive s c) := by
  unfold RespectsCohesive; infer_instance

instance (s : Session) (c : PlanningConstraints) : Decidable (RespectsExclusive s c) := by
  unfold RespectsExclusive; infer_instance

instance (c : PlanningConstraints) : Decidable (ConstraintsWF c) := by
  unfold ConstraintsWF; infer_instance

/-- `equityLoop` is the first projection of the traced loop. -/
theorem equityLoop_eq_full (config : PlanningConfig) (constraints : Option PlanningConstraints)
    (participants : Option (List Participant)) (vip_max_advantage fuel : ℕ)
    (equitable : Planning) (recent_gaps : List ℕ) :
    equityLoop config constraints participants vip_max_advantage fuel equitable recent_gaps
      = (equityLoopFull config constraints participants vip_max_advantage fuel
          equitable recent_gaps).map Prod.fst := by
  unfold equityLoop
  cases equityLoopFull config constraints participants vip_max_advantage fuel
      equitable recent_gaps <;> rfl

/-! ## C1: determinism of the pipeline -/

/-- C1: for a fixed input tuple, two invocations of
`generate_optimized_planning` return identical plan/metrics pairs.  In
the embedding the pipeline is a pure function of its arguments, so two
invocations on one tuple are the same term; the theorem records the
stronger structural fact behind the claim — the result does not even
depend on the seed, because `random.seed(seed)` only writes a global RNG
state that no phase ever reads. -/
theorem generate_optimized_planning_deterministic (config : PlanningConfig)
    (seed1 seed2 : ℕ) (constraints : Option PlanningConstraints)
    (participants : Option (List Participant)) :
    generate_optimized_planning config seed1 constraints participants
      = generate_optimized_planning config seed2 constraints participants := rfl

/-! ## C3: the optimizer never worsens the equity gap -/

/-- C3: whenever `improve_planning` returns a plan, either that plan is
the untouched input, or its recomputed equity gap is at most the gap of
the input plan (the final non-regression check of `improve_planning`
discards the optimization otherwise). -/
theorem improve_planning_no_equity_regression (planning : Planning)
    (config : PlanningConfig) (max_iterations : ℕ)
    (constraints : Option PlanningConstraints) (result : Planning)
    (h : improve_planning planning config max_iterations constraints = .ok result) :
    result = planning
      ∨ ∃ m0 m1, compute_metrics planning config none = .ok m0
          ∧ compute_metrics result config none = .ok m1
          ∧ m1.equity_gap ≤ m0.equity_gap := by
  unfold improve_planning at h
  split at h
  · exact absurd h (by simp)
  next initial_metrics h0 =>
    split at h
    · exact absurd h (by simp)
    next optimized h1 =>
      split at h
      · exact absurd h (by simp)
      next final_metrics h2 =>
        split at h
        · left; cases h; rfl
        next hgap =>
          right
          cases h
          exact ⟨initial_metrics, final_metrics, h0, h2, Nat.le_of_not_lt hgap⟩

/-- Witness for C3 at a concrete input (`N=2, X=1, x=2, S=1`, one table
`{0,1}`, one optimizer iteration). -/
theorem improve_planning_no_equity_regression_witness :
    (⟨[⟨0, [{0,1}]⟩], ⟨2,1,2,1⟩⟩ : Planning) = (⟨[⟨0, [{0,1}]⟩], ⟨2,1,2,1⟩⟩ : Planning)
      ∨ ∃ m0 m1, compute_metrics ⟨[⟨0, [{0,1}]⟩], ⟨2,1,2,1⟩⟩ ⟨2,1,2,1⟩ none = .ok m0
          ∧ compute_metrics ⟨[⟨0, [{0,1}]⟩], ⟨2,1,2,1⟩⟩ ⟨2,1,2,1⟩ none = .ok m1
          ∧ m1.equity_gap ≤ m0.equity_gap :=
  improve_planning_no_equity_regression ⟨[⟨0, [{0,1}]⟩], ⟨2,1,2,1⟩⟩ ⟨2,1,2,1⟩ 1 none
    ⟨[⟨0, [{0,1}]⟩], ⟨2,1,2,1⟩⟩ (by rfl)

/-! ## C7: configuration validation -/

/-- C7: `validate_config` raises `InvalidConfigurationError` exactly when
`N<2`, `X<1`, `x<2`, `S<1` or `X·x<N`, and in that case
`generate_optimized_planning` propagates the error before any plan is
constructed. -/
theorem validate_config_error_iff (config : PlanningConfig) (seed : ℕ)
    (constraints : Option PlanningConstraints)
    (participants : Option (List Participant)) :
    ((∃ e, validate_config config = .error e)
        ↔ (config.N < 2 ∨ config.X < 1 ∨ config.x < 2 ∨ config.S < 1
            ∨ config.X * config.x < config.N))
      ∧ ∀ e, validate_config config = .error e →
          generate_optimized_planning config seed constraints participants = .error e := by
  constructor
  · unfold validate_config
    split_ifs with h1 h2 h3 h4 h5
    · exact ⟨fun _ => Or.inl h1, fun _ => ⟨_, rfl⟩⟩
    · exact ⟨fun _ => Or.inr (Or.inl h2), fun _ => ⟨_, rfl⟩⟩
    · exact ⟨fun _ => Or.inr (Or.inr (Or.inl h3)), fun _ => ⟨_, rfl⟩⟩
    · exact ⟨fun _ => Or.inr (Or.inr (Or.inr (Or.inl h4))), fun _ => ⟨_, rfl⟩⟩
    · exact ⟨fun _ => Or.inr (Or.inr (Or.inr (Or.inr h5))), fun _ => ⟨_, rfl⟩⟩
    · constructor
      · rintro ⟨e, he⟩
        exact absurd he (by simp)
      · rintro (h | h | h | h | h)
        exacts [absurd h h1, absurd h h2, absurd h h3, absurd h h4, absurd h h5]
  · intro e he
    unfold generate_optimized_planning
    rw [he]

/-- Witness for C7 at the spec's scenario `N=50, X=5, x=8` (capacity
`40 < 50`): the pipeline raises and constructs no plan. -/
theorem validate_config_error_iff_witness :
    generate_optimized_planning ⟨50, 5, 8, 3⟩ 42 none none
      = .error PyError.invalidConfiguration :=
  (validate_config_error_iff ⟨50, 5, 8, 3⟩ 42 none none).2 PyError.invalidConfiguration
    (by rfl)

/-! ## C9: purity of the swap evaluator -/

/-- C9: `evaluate_swap` never mutates its `Planning` argument.  The
state-threaded embedding `evaluate_swap_state` returns the planning
state after executing the source body; since every statement of
`evaluate_swap` either reads the planning or builds fresh local sets
(`new_table1`/`new_table2`), that state is the input, unchanged, on every
path — those on which the function returns a delta and those on which it
raises. -/
theorem evaluate_swap_never_mutates (planning : Planning)
    (session_id table1_id p1 table2_id p2 : ℕ) (met_pairs : Finset (ℕ × ℕ)) :
    (evaluate_swap_state planning session_id table1_id p1 table2_id p2 met_pairs).2
        = planning
      ∧ (evaluate_swap_state planning session_id table1_id p1 table2_id p2 met_pairs).1
        = evaluate_swap planning session_id table1_id p1 table2_id p2 met_pairs :=
  ⟨rfl, rfl⟩

/-! ## Generic helper lemmas -/

theorem mem_unionTables {x : ℕ} : ∀ {ts : List (Finset ℕ)},
    x ∈ unionTables ts ↔ ∃ t ∈ ts, x ∈ t := by
  intro ts
  induction ts with
  | nil => simp [unionTables]
  | cons t rest ih => simp [unionTables, Finset.mem_union, ih.symm]

theorem mem_unionTables_index {x : ℕ} {ts : List (Finset ℕ)} :
    x ∈ unionTables ts ↔ ∃ k, k < ts.length ∧ x ∈ ts.getD k ∅ := by
  rw [mem_unionTables]
  constructor
  · rintro ⟨t, ht, hx⟩
    obtain ⟨k, hk, hget⟩ := List.mem_iff_getElem.mp ht
    refine ⟨k, hk, ?_⟩
    rw [List.getD_eq_getElem?_getD, List.getElem?_eq_getElem hk]
    simpa [hget]
  · rintro ⟨k, hk, hx⟩
    refine ⟨ts.getD k ∅, ?_, hx⟩
    rw [List.getD_eq_getElem?_getD, List.getElem?_eq_getElem hk]
    exact List.getElem_mem hk

theorem getD_set_self {l : List (Finset ℕ)} {i : ℕ} {a : Finset ℕ} (h : i < l.length) :
    (l.set i a).getD i ∅ = a := by
  rw [List.getD_eq_getElem?_getD, List.getElem?_set_self h]; rfl

theorem getD_set_ne {l : List (Finset ℕ)} {i j : ℕ} {a : Finset ℕ} (h : i ≠ j) :
    (l.set i a).getD j ∅ = l.getD j ∅ := by
  rw [List.getD_eq_getElem?_getD, List.getElem?_set_ne h, ← List.getD_eq_getElem?_getD]

theorem getD_of_getElem?_eq {l : List Session} {n : ℕ} {s : Session}
    (h : l[n]? = some s) : l.getD n ⟨0, []⟩ = s := by
  rw [List.getD_eq_getElem?_getD, h]; rfl

theorem getD_tables_of_getElem?_eq {l : List (Finset ℕ)} {n : ℕ} {t : Finset ℕ}
    (h : l[n]? = some t) : l.getD n ∅ = t := by
  rw [List.getD_eq_getElem?_getD, h]; rfl

theorem lt_length_of_getElem?_eq {α : Type} {l : List α} {n : ℕ} {a : α}
    (h : l[n]? = some a) : n < l.length := by
  by_contra hn
  rw [List.getElem?_eq_none (Nat.le_of_not_lt hn)] at h
  cases h

/-- Invariant preservation through `List.foldlM` over `Except`. -/
theorem foldlM_except_inv {α β ε : Type} (f : β → α → Except ε β) (P : β → Prop)
    (hf : ∀ b a b2, P b → f b a = .ok b2 → P b2) :
    ∀ (l : List α) (b b2 : β), P b → List.foldlM f b l = .ok b2 → P b2 := by
  intro l
  induction l with
  | nil => intro b b2 hb h; cases h; exact hb
  | cons a t ih =>
    intro b b2 hb h
    rw [List.foldlM_cons] at h
    cases hfa : f b a with
    | error e => rw [hfa] at h; cases h
    | ok b1 =>
      rw [hfa] at h
      exact ih b1 b2 (hf b a b1 hb hfa) h

theorem mem_tableIndexPairs {L : ℕ} {tp : ℕ × ℕ} (h : tp ∈ tableIndexPairs L) :
    tp.1 < tp.2 := by
  simp only [tableIndexPairs, List.mem_flatMap, List.mem_map, List.mem_filter,
    List.mem_range] at h
  obtain ⟨i, _, j, ⟨_, hij⟩, rfl⟩ := h
  simpa using hij

theorem findTableOf_facts {tables : List (Finset ℕ)} {p k : ℕ}
    (h : findTableOf tables p = some k) :
    k < tables.length ∧ p ∈ tables.getD k ∅ := by
  unfold findTableOf at h
  have aux : ∀ (l : List ℕ) (acc : Option ℕ),
      (∀ m, acc = some m → m < tables.length ∧ p ∈ tables.getD m ∅) →
      (∀ t ∈ l, t < tables.length) →
      l.foldl (fun acc2 tid => if p ∈ tables.getD tid ∅ then some tid else acc2) acc
        = some k →
      k < tables.length ∧ p ∈ tables.getD k ∅ := by
    intro l
    induction l with
    | nil => intro acc hacc _ hfold; exact hacc k hfold
    | cons t rest ih =>
      intro acc hacc hlt hfold
      simp only [List.foldl_cons] at hfold
      refine ih _ ?_ (fun u hu => hlt u (List.mem_cons_of_mem t hu)) hfold
      intro m hm
      by_cases hp : p ∈ tables.getD t ∅
      · rw [if_pos hp] at hm
        cases hm
        exact ⟨hlt t (List.mem_cons_self t rest), hp⟩
      · rw [if_neg hp] at hm
        exact hacc m hm
  exact aux (List.range tables.length) none (by intro m hm; cases hm)
    (by intro t ht; exact List.mem_range.mp ht) h

theorem evaluate_swap_ok_facts {pl : Planning} {sid i p j q : ℕ}
    {met : Finset (ℕ × ℕ)} {delta : ℤ}
    (h : evaluate_swap pl sid i p j q met = .ok delta) :
    sid < pl.sessions.length
      ∧ i < (pl.sessions.getD sid ⟨0, []⟩).tables.length
      ∧ j < (pl.sessions.getD sid ⟨0, []⟩).tables.length
      ∧ p ∈ (pl.sessions.getD sid ⟨0, []⟩).tables.getD i ∅
      ∧ q ∈ (pl.sessions.getD sid ⟨0, []⟩).tables.getD j ∅ := by
  unfold evaluate_swap at h
  split at h
  · cases h
  next session hs =>
    split at h
    · cases h
    next table1 ht1 =>
      split at h
      · cases h
      next table2 ht2 =>
        split at h
        · cases h
        next hp =>
          split at h
          · cases h
          next hq =>
            rw [getD_of_getElem?_eq hs]
            refine ⟨lt_length_of_getElem?_eq hs, lt_length_of_getElem?_eq ht1,
              lt_length_of_getElem?_eq ht2, ?_, ?_⟩
            · rw [getD_tables_of_getElem?_eq ht1]; exact not_not.mp hp
            · rw [getD_tables_of_getElem?_eq ht2]; exact not_not.mp hq

theorem exists_mem_iff_index {P : Finset ℕ → Prop} {ts : List (Finset ℕ)} :
    (∃ t ∈ ts, P t) ↔ ∃ k, k < ts.length ∧ P (ts.getD k ∅) := by
  constructor
  · rintro ⟨t, ht, hP⟩
    obtain ⟨k, hk, hget⟩ := List.mem_iff_getElem.mp ht
    refine ⟨k, hk, ?_⟩
    rw [List.getD_eq_getElem?_getD, List.getElem?_eq_getElem hk]
    simpa [hget]
  · rintro ⟨k, hk, hP⟩
    refine ⟨ts.getD k ∅, ?_, hP⟩
    rw [List.getD_eq_getElem?_getD, List.getElem?_eq_getElem hk]
    exact List.getElem_mem hk

theorem forall_mem_iff_index {P : Finset ℕ → Prop} {ts : List (Finset ℕ)} :
    (∀ t ∈ ts, P t) ↔ ∀ k, k < ts.length → P (ts.getD k ∅) := by
  constructor
  · intro h k hk
    refine h _ ?_
    rw [List.getD_eq_getElem?_getD, List.getElem?_eq_getElem hk]
    exact List.getElem_mem hk
  · intro h t ht
    obtain ⟨k, hk, hget⟩ := List.mem_iff_getElem.mp ht
    have := h k hk
    rw [List.getD_eq_getElem?_getD, List.getElem?_eq_getElem hk] at this
    simpa [hget] using this

theorem getD_mem_sessions {l : List Session} {sid : ℕ} (h : sid < l.length) :
    l.getD sid ⟨0, []⟩ ∈ l := by
  rw [List.getD_eq_getElem?_getD, List.getElem?_eq_getElem h]
  exact List.getElem_mem h

theorem apply_swap_length (s : Session) (i p j q : ℕ) :
    (_apply_swap s i p j q).tables.length = s.tables.length := by
  simp [_apply_swap]

theorem apply_swap_tables_getD (s : Session) (i p j q k : ℕ) (hij : i ≠ j)
    (hi : i < s.tables.length) (hj : j < s.tables.length) :
    (_apply_swap s i p j q).tables.getD k ∅ =
      if k = i then (s.tables.getD i ∅).erase p ∪ {q}
      else if k = j then (s.tables.getD j ∅).erase q ∪ {p}
      else s.tables.getD k ∅ := by
  unfold _apply_swap
  by_cases hkj : k = j
  · subst hkj
    rw [getD_set_self (by simpa using hj), if_neg (fun h => hij h.symm), if_pos rfl]
  · rw [getD_set_ne (fun h => hkj h.symm)]
    by_cases hki : k = i
    · subst hki
      rw [getD_set_self hi, if_pos rfl]
    · rw [getD_set_ne (fun h => hki h.symm), if_neg hki, if_neg hkj]

theorem apply_swap_mem (s : Session) (i p j q : ℕ)
    (hij : i ≠ j) (hi : i < s.tables.length) (hj : j < s.tables.length) :
    ∀ m, ∀ y, m < s.tables.length →
      (y ∈ (_apply_swap s i p j q).tables.getD m ∅ ↔
        ((m = i ∧ ((y ∈ s.tables.getD i ∅ ∧ y ≠ p) ∨ y = q))
          ∨ (m = j ∧ ((y ∈ s.tables.getD j ∅ ∧ y ≠ q) ∨ y = p))
          ∨ (m ≠ i ∧ m ≠ j ∧ y ∈ s.tables.getD m ∅))) := by
  intro m y _hm
  rw [apply_swap_tables_getD s i p j q m hij hi hj]
  by_cases hmi : m = i
  · subst hmi
    simp only [if_pos rfl]
    simp [Finset.mem_union, Finset.mem_erase, hij]
    tauto
  · by_cases hmj : m = j
    · subst hmj
      rw [if_neg hmi, if_pos rfl]
      simp [Finset.mem_union, Finset.mem_erase, hmi]
      tauto
    · rw [if_neg hmi, if_neg hmj]
      simp [hmi, hmj]

theorem apply_swap_disjoint (s : Session) (i p j q : ℕ)
    (hij : i ≠ j) (hi : i < s.tables.length) (hj : j < s.tables.length)
    (hp : p ∈ s.tables.getD i ∅) (hq : q ∈ s.tables.getD j ∅)
    (hdis : TablesDisjoint s.tables) :
    TablesDisjoint (_apply_swap s i p j q).tables := by
  have base : ∀ a b, a < s.tables.length → b < s.tables.length → a ≠ b →
      ∀ x, x ∈ s.tables.getD a ∅ → x ∉ s.tables.getD b ∅ := by
    intro a b ha hb hab x hx
    exact Finset.disjoint_left.mp (hdis a ha b hb hab) hx
  have hpq : p ≠ q := fun h => base i j hi hj hij p hp (h ▸ hq)
  intro k hk l hl hkl
  rw [apply_swap_length] at hk hl
  rw [Finset.disjoint_left]
  intro x hx hy
  rw [apply_swap_mem s i p j q hij hi hj k x hk] at hx
  rw [apply_swap_mem s i p j q hij hi hj l x hl] at hy
  rcases hx with ⟨hki, hx⟩ | ⟨hkj, hx⟩ | ⟨hki, hkj, hx⟩ <;>
    rcases hy with ⟨hli, hy⟩ | ⟨hlj, hy⟩ | ⟨hli2, hlj2, hy⟩
  · omega
  · rcases hx with ⟨hxt, hxp⟩ | rfl
    · rcases hy with ⟨hyt, -⟩ | rfl
      · exact base i j hi hj hij x hxt hyt
      · exact hxp rfl
    · rcases hy with ⟨-, hyq⟩ | hqp
      · exact hyq rfl
      · exact hpq hqp.symm
  · rcases hx with ⟨hxt, -⟩ | rfl
    · exact base i l hi hl (fun h => hli2 h.symm) x hxt hy
    · exact base j l hj hl (fun h => hlj2 h.symm) x hq hy
  · rcases hx with ⟨hxt, hxq⟩ | rfl
    · rcases hy with ⟨hyt, -⟩ | rfl
      · exact base j i hj hi (Ne.symm hij) x hxt hyt
      · exact hxq rfl
    · rcases hy with ⟨-, hyp⟩ | hpq2
      · exact hyp rfl
      · exact hpq hpq2
  · omega
  · rcases hx with ⟨hxt, -⟩ | rfl
    · exact base j l hj hl (fun h => hlj2 h.symm) x hxt hy
    · exact base i l hi hl (fun h => hli2 h.symm) x hp hy
  · rcases hy with ⟨hyt, -⟩ | rfl
    · exact base i k hi hk (fun h => hki h.symm) x hyt hx
    · exact base j k hj hk (fun h => hkj h.symm) x hq hx
  · rcases hy with ⟨hyt, -⟩ | rfl
    · exact base j k hj hk (fun h => hkj h.symm) x hyt hx
    · exact base i k hi hk (fun h => hki h.symm) x hp hx
  · exact base k l hk hl hkl x hx hy

theorem apply_swap_unionTables (s : Session) (i p j q : ℕ)
    (hij : i ≠ j) (hi : i < s.tables.length) (hj : j < s.tables.length)
    (hp : p ∈ s.tables.getD i ∅) (hq : q ∈ s.tables.getD j ∅) :
    unionTables (_apply_swap s i p j q).tables = unionTables s.tables := by
  ext x
  rw [mem_unionTables_index, mem_unionTables_index]
  simp only [apply_swap_length]
  constructor
  · rintro ⟨k, hk, hx⟩
    rw [apply_swap_mem s i p j q hij hi hj k x hk] at hx
    rcases hx with ⟨-, ⟨hxt, -⟩ | rfl⟩ | ⟨-, ⟨hxt, -⟩ | rfl⟩ | ⟨-, -, hxt⟩
    · exact ⟨i, hi, hxt⟩
    · exact ⟨j, hj, hq⟩
    · exact ⟨j, hj, hxt⟩
    · exact ⟨i, hi, hp⟩
    · exact ⟨k, hk, hxt⟩
  · rintro ⟨k, hk, hx⟩
    by_cases hki : k = i
    · rw [hki] at hx
      by_cases hxp : x = p
      · refine ⟨j, hj, ?_⟩
        rw [apply_swap_mem s i p j q hij hi hj j x hj]
        exact Or.inr (Or.inl ⟨rfl, Or.inr hxp⟩)
      · refine ⟨i, hi, ?_⟩
        rw [apply_swap_mem s i p j q hij hi hj i x hi]
        exact Or.inl ⟨rfl, Or.inl ⟨hx, hxp⟩⟩
    · by_cases hkj : k = j
      · rw [hkj] at hx
        by_cases hxq : x = q
        · refine ⟨i, hi, ?_⟩
          rw [apply_swap_mem s i p j q hij hi hj i x hi]
          exact Or.inl ⟨rfl, Or.inr hxq⟩
        · refine ⟨j, hj, ?_⟩
          rw [apply_swap_mem s i p j q hij hi hj j x hj]
          exact Or.inr (Or.inl ⟨rfl, Or.inl ⟨hx, hxq⟩⟩)
      · refine ⟨k, hk, ?_⟩
        rw [apply_swap_mem s i p j q hij hi hj k x hk]
        exact Or.inr (Or.inr ⟨hki, hkj, hx⟩)

theorem apply_swap_respects (s : Session) (c : PlanningConstraints) (i p j q : ℕ)
    (hij : i ≠ j) (hi : i < s.tables.length) (hj : j < s.tables.length)
    (hp : p ∈ s.tables.getD i ∅) (hq : q ∈ s.tables.getD j ∅)
    (hdis : TablesDisjoint s.tables)
    (hwf : ∀ g ∈ c.cohesive_groups, 2 ≤ g.participant_ids.card)
    (hcoh : RespectsCohesive s c) (hexc : RespectsExclusive s c)
    (hcheck : validate_swap_constraints s i p j q c = false) :
    RespectsCohesive (_apply_swap s i p j q) c
      ∧ RespectsExclusive (_apply_swap s i p j q) c := by
  have base : ∀ a b, a < s.tables.length → b < s.tables.length → a ≠ b →
      ∀ x, x ∈ s.tables.getD a ∅ → x ∉ s.tables.getD b ∅ := by
    intro a b ha hb hab x hx
    exact Finset.disjoint_left.mp (hdis a ha b hb hab) hx
  unfold validate_swap_constraints at hcheck
  rw [Bool.or_eq_false_iff] at hcheck
  obtain ⟨hcheck1, hcheck2⟩ := hcheck
  rw [List.any_eq_false] at hcheck1 hcheck2
  simp only [Bool.or_eq_true, Bool.and_eq_true, decide_eq_true_eq,
    Bool.not_eq_eq_eq_not, Bool.not_true, decide_eq_false_iff_not, not_or, not_and,
    Decidable.not_not, not_le] at hcheck1 hcheck2
  have hco : ∀ g ∈ c.cohesive_groups,
      (p ∈ g.participant_ids →
        g.participant_ids ⊆ (s.tables.getD j ∅) \ {q} ∪ {p})
      ∧ (q ∈ g.participant_ids →
        g.participant_ids ⊆ (s.tables.getD i ∅) \ {p} ∪ {q}) := by
    intro g hg
    exact hcheck1 g hg
  have hex : ∀ g ∈ c.exclusive_groups,
      (((s.tables.getD i ∅) \ {p} ∪ {q}) ∩ g.participant_ids).card ≤ 1
      ∧ (((s.tables.getD j ∅) \ {q} ∪ {p}) ∩ g.participant_ids).card ≤ 1 := by
    intro g hg
    obtain ⟨h1, h2⟩ := hcheck2 g hg
    exact ⟨Nat.lt_succ_iff.mp h1, Nat.lt_succ_iff.mp h2⟩
  -- neither swapped participant belongs to a cohesive group
  have hnocoh : ∀ g ∈ c.cohesive_groups, p ∉ g.participant_ids ∧ q ∉ g.participant_ids := by
    intro g hg
    obtain ⟨k, hk, hsub⟩ := exists_mem_iff_index.mp (hcoh g hg)
    constructor
    · intro hpg
      have hki : k = i := by
        by_contra hki
        exact base k i hk hi hki p (hsub hpg) hp
      subst hki
      obtain ⟨m, hm, hmp⟩ := Finset.exists_ne_of_one_lt_card
        (Nat.lt_of_lt_of_le Nat.one_lt_two (hwf g hg)) p
      have hmsub := (hco g hg).1 hpg hm
      simp only [Finset.mem_union, Finset.mem_sdiff, Finset.mem_singleton] at hmsub
      rcases hmsub with ⟨hmj, -⟩ | hmp2
      · exact base k j hk hj hij m (hsub hm) hmj
      · exact hmp hmp2
    · intro hqg
      have hkj : k = j := by
        by_contra hkj
        exact base k j hk hj hkj q (hsub hqg) hq
      subst hkj
      obtain ⟨m, hm, hmq⟩ := Finset.exists_ne_of_one_lt_card
        (Nat.lt_of_lt_of_le Nat.one_lt_two (hwf g hg)) q
      have hmsub := (hco g hg).2 hqg hm
      simp only [Finset.mem_union, Finset.mem_sdiff, Finset.mem_singleton] at hmsub
      rcases hmsub with ⟨hmi, -⟩ | hmq2
      · exact base k i hk hi (Ne.symm hij) m (hsub hm) hmi
      · exact hmq hmq2
  constructor
  · -- cohesive groups stay inside one table
    intro g hg
    obtain ⟨k, hk, hsub⟩ := exists_mem_iff_index.mp (hcoh g hg)
    obtain ⟨hpg, hqg⟩ := hnocoh g hg
    rw [exists_mem_iff_index]
    refine ⟨k, by rwa [apply_swap_length], ?_⟩
    intro y hy
    rw [apply_swap_mem s i p j q hij hi hj k y hk]
    by_cases hki : k = i
    · subst hki
      exact Or.inl ⟨rfl, Or.inl ⟨hsub hy, fun h => hpg (h ▸ hy)⟩⟩
    · by_cases hkj : k = j
      · subst hkj
        exact Or.inr (Or.inl ⟨rfl, Or.inl ⟨hsub hy, fun h => hqg (h ▸ hy)⟩⟩)
      · exact Or.inr (Or.inr ⟨hki, hkj, hsub hy⟩)
  · -- exclusive groups never get two members at one table
    intro g hg
    rw [forall_mem_iff_index]
    intro k hk
    rw [apply_swap_length] at hk
    rw [apply_swap_tables_getD s i p j q k hij hi hj]
    by_cases hki : k = i
    · subst hki
      rw [if_pos rfl, Finset.erase_eq]
      exact (hex g hg).1
    · by_cases hkj : k = j
      · subst hkj
        rw [if_neg hki, if_pos rfl, Finset.erase_eq]
        exact (hex g hg).2
      · rw [if_neg hki, if_neg hkj]
        exact (forall_mem_iff_index.mp (hexc g hg)) k hk

/-- Invariant preservation through `List.foldlM` over `Except`, with the
fold element known to come from the list. -/
theorem foldlM_except_inv_mem {α β ε : Type} (P : β → Prop) :
    ∀ (l : List α) (f : β → α → Except ε β),
    (∀ b a b2, a ∈ l → P b → f b a = .ok b2 → P b2) →
    ∀ (b b2 : β), P b → List.foldlM f b l = .ok b2 → P b2 := by
  intro l
  induction l with
  | nil => intro f _ b b2 hb h; cases h; exact hb
  | cons a t ih =>
    intro f hf b b2 hb h
    rw [List.foldlM_cons] at h
    cases hfa : f b a with
    | error e => rw [hfa] at h; cases h
    | ok b1 =>
      rw [hfa] at h
      exact ih f (fun b' a' b2' ha' => hf b' a' b2' (List.mem_cons_of_mem a ha'))
        b1 b2 (hf b a b1 (List.mem_cons_self a t) hb hfa) h

/-- A planning predicate `P` closed under the guarded participant
exchange that every optimization phase performs: the two participants
sit at two distinct existing tables of an existing session, and — when a
constraint set is supplied — `validate_swap_constraints` reported no
violation. -/
def SwapStepOk (copt : Option PlanningConstraints) (P : Planning → Prop) : Prop :=
  ∀ (pl : Planning) (sid i pp j qq : ℕ),
    P pl → i ≠ j →
    sid < pl.sessions.length →
    i < (pl.sessions.getD sid ⟨0, []⟩).tables.length →
    j < (pl.sessions.getD sid ⟨0, []⟩).tables.length →
    pp ∈ (pl.sessions.getD sid ⟨0, []⟩).tables.getD i ∅ →
    qq ∈ (pl.sessions.getD sid ⟨0, []⟩).tables.getD j ∅ →
    (∀ c, copt = some c →
      validate_swap_constraints (pl.sessions.getD sid ⟨0, []⟩) i pp j qq c = false) →
    P (updateSession pl sid fun s => _apply_swap s i pp j qq)

theorem improvePairStep_inv {copt : Option PlanningConstraints} {P : Planning → Prop}
    (hP : SwapStepOk copt P) {met : Finset (ℕ × ℕ)} {sid i j : ℕ} (hij : i ≠ j)
    {st st2 : Planning × ℕ} {p1 p2 : ℕ} (hst : P st.1)
    (h : improvePairStep met copt sid i j st p1 p2 = .ok st2) : P st2.1 := by
  unfold improvePairStep at h
  dsimp only at h
  by_cases hblocked : swapBlocked copt (st.1.sessions.getD sid ⟨0, []⟩) i p1 j p2 = true
  · rw [if_pos hblocked] at h; cases h; exact hst
  · rw [if_neg hblocked] at h
    split at h
    · cases h; exact hst
    · cases h
    next delta heval =>
      split at h
      · cases h
        obtain ⟨hsid, hi, hj, hp, hq⟩ := evaluate_swap_ok_facts heval
        refine hP st.1 sid i p1 j p2 hst hij hsid hi hj hp hq ?_
        intro c hc
        subst hc
        simpa [swapBlocked] using hblocked
      · cases h; exact hst

theorem improveTablePair_inv {copt : Option PlanningConstraints} {P : Planning → Prop}
    (hP : SwapStepOk copt P) {met : Finset (ℕ × ℕ)} {sid : ℕ}
    {st st2 : Planning × ℕ} {tp : ℕ × ℕ} (htp : tp.1 ≠ tp.2) (hst : P st.1)
    (h : improveTablePair met copt sid st tp = .ok st2) : P st2.1 := by
  unfold improveTablePair at h
  exact foldlM_except_inv _ (fun st3 => P st3.1)
    (fun b p1 b2 hb hfold =>
      foldlM_except_inv _ (fun st3 => P st3.1)
        (fun b2 p2 b3 hb2 h2 => improvePairStep_inv hP htp hb2 h2)
        _ b b2 hb hfold)
    _ st st2 hst h

theorem improve_session_inv {copt : Option PlanningConstraints} {P : Planning → Prop}
    (hP : SwapStepOk copt P) {met : Finset (ℕ × ℕ)} {sid : ℕ}
    {pl : Planning} {r : Planning × ℕ} (hpl : P pl)
    (h : _improve_session pl sid met copt = .ok r) : P r.1 := by
  unfold _improve_session at h
  exact foldlM_except_inv_mem (fun st3 => P st3.1) _ _
    (fun b tp b2 htp hb h2 =>
      improveTablePair_inv hP (Nat.ne_of_lt (mem_tableIndexPairs htp)) hb h2)
    (pl, 0) r hpl h

theorem improveIteration_inv {copt : Option PlanningConstraints} {P : Planning → Prop}
    (hP : SwapStepOk copt P) {pl : Planning} {r : Planning × ℕ} (hpl : P pl)
    (h : improveIteration pl copt = .ok r) : P r.1 := by
  unfold improveIteration at h
  refine foldlM_except_inv _ (fun st3 => P st3.1) ?_ _ (pl, 0) r hpl h
  intro b sid b2 hb h2
  simp only at h2
  split at h2
  · cases h2
  next r2 h3 =>
    cases h2
    exact @improve_session_inv copt P hP _ _ _ r2 hb h3

theorem improveLoop_inv {copt : Option PlanningConstraints} {P : Planning → Prop}
    (hP : SwapStepOk copt P) :
    ∀ (fuel : ℕ) (pl : Planning) (plateau : ℕ) (r : Planning), P pl →
      improveLoop copt fuel pl plateau = .ok r → P r := by
  intro fuel
  induction fuel with
  | zero => intro pl plateau r hpl h; cases h; exact hpl
  | succ n ih =>
    intro pl plateau r hpl h
    unfold improveLoop at h
    split at h
    · cases h
    next r2 h2 =>
      have hr2 : P r2.1 := improveIteration_inv hP hpl h2
      dsimp only at h
      by_cases h5 : 5 ≤ (if 0 < r2.2 then 0 else plateau + 1)
      · rw [if_pos h5] at h; cases h; exact hr2
      · rw [if_neg h5] at h; exact ih r2.1 _ r hr2 h

/-- `improve_planning` preserves any swap-closed planning invariant. -/
theorem improve_planning_inv {copt : Option PlanningConstraints} {P : Planning → Prop}
    (hP : SwapStepOk copt P) {pl r : Planning} {config : PlanningConfig}
    {max_iterations : ℕ} (hpl : P pl)
    (h : improve_planning pl config max_iterations copt = .ok r) : P r := by
  unfold improve_planning at h
  split at h
  · cases h
  next initial_metrics h0 =>
    split at h
    · cases h
    next optimized h2 =>
      split at h
      · cases h
      next final_metrics h3 =>
        split at h
        · cases h; exact hpl
        · cases h; exact improveLoop_inv hP max_iterations pl 0 _ hpl h2

theorem try_swap_participants_inv {copt : Option PlanningConstraints} {P : Planning → Prop}
    (hP : SwapStepOk copt P) {pl pl2 : Planning} {p_over p_under : ℕ}
    {met : Finset (ℕ × ℕ)} {config : PlanningConfig} (hpl : P pl)
    (h : _try_swap_participants pl p_over p_under met config copt = some pl2) : P pl2 := by
  unfold _try_swap_participants at h
  obtain ⟨sid, hsidmem, hbody⟩ := List.exists_of_findSome?_eq_some h
  have hsid : sid < pl.sessions.length := List.mem_range.mp hsidmem
  dsimp only at hbody
  split at hbody
  next table_over_id table_under_id hfo hfu =>
    split at hbody
    · cases hbody
    next hou =>
      split at hbody
      next himp =>
        split at hbody
        · cases hbody
        next hblocked =>
          cases hbody
          obtain ⟨hol, hom⟩ := findTableOf_facts hfo
          obtain ⟨hul, hum⟩ := findTableOf_facts hfu
          refine hP pl sid table_over_id p_over table_under_id p_under hpl hou hsid
            hol hul hom hum ?_
          intro c hc
          subst hc
          simpa [swapBlocked] using hblocked
      · cases hbody
  · cases hbody

theorem equitySearchSwap_inv {copt : Option PlanningConstraints} {P : Planning → Prop}
    (hP : SwapStepOk copt P) {pl pl2 : Planning}
    {priorities : List (List ℕ × List ℕ)} {met : Finset (ℕ × ℕ)}
    {config : PlanningConfig} (hpl : P pl)
    (h : equitySearchSwap pl priorities met config copt = some pl2) : P pl2 := by
  unfold equitySearchSwap at h
  obtain ⟨pr, -, h1⟩ := List.exists_of_findSome?_eq_some h
  obtain ⟨pu, -, h2⟩ := List.exists_of_findSome?_eq_some h1
  obtain ⟨po, -, h3⟩ := List.exists_of_findSome?_eq_some h2
  exact try_swap_participants_inv hP hpl h3

theorem equityLoopFull_inv {copt : Option PlanningConstraints} {P : Planning → Prop}
    (hP : SwapStepOk copt P) {config : PlanningConfig}
    {participants : Option (List Participant)} {vmax : ℕ} :
    ∀ (fuel : ℕ) (pl : Planning) (recent : List ℕ) (r : Planning × List ℕ), P pl →
      equityLoopFull config copt participants vmax fuel pl recent = .ok r → P r.1 := by
  intro fuel
  induction fuel with
  | zero =>
    intro pl recent r hpl h
    unfold equityLoopFull at h
    split at h
    · cases h
    · cases h; exact hpl
  | succ n ih =>
    intro pl recent r hpl h
    unfold equityLoopFull at h
    split at h
    · cases h
    next metrics hm =>
      dsimp only at h
      split at h
      · cases h; exact hpl
      · split at h
        · cases h; exact hpl
        · split at h
          · cases h
          next priorities hprio =>
            split at h
            next pl2 hsearch =>
              split at h
              · cases h
              next r2 hrec =>
                cases h
                exact ih pl2 _ r2 (equitySearchSwap_inv hP hpl hsearch) hrec
            · cases h; exact hpl

/-- `enforce_equity` preserves any swap-closed planning invariant. -/
theorem enforce_equity_inv {copt : Option PlanningConstraints} {P : Planning → Prop}
    (hP : SwapStepOk copt P) {pl r : Planning} {config : PlanningConfig}
    {participants : Option (List Participant)} {vmax : ℕ} (hpl : P pl)
    (h : enforce_equity pl config copt participants vmax = .ok r) : P r := by
  unfold enforce_equity equityLoop at h
  split at h
  · cases h
  next r2 h2 =>
    cases h
    exact equityLoopFull_inv hP 1000 pl [] r2 hpl h2

/-- The round-partition invariant is closed under guarded swaps. -/
theorem swapStepOk_partition (N : ℕ) (copt : Option PlanningConstraints) :
    SwapStepOk copt (fun pl => ∀ s ∈ pl.sessions, SessionPartition s N) := by
  intro pl sid i pp j qq hpl hij hsid hi hj hp hq _hcheck
  intro s hs
  unfold updateSession at hs
  rcases List.mem_or_eq_of_mem_set hs with hmem | rfl
  · exact hpl s hmem
  · obtain ⟨hdis, huni⟩ := hpl _ (getD_mem_sessions hsid)
    exact ⟨apply_swap_disjoint _ i pp j qq hij hi hj hp hq hdis,
      (apply_swap_unionTables _ i pp j qq hij hi hj hp hq).trans huni⟩

/-- The constraint-respect invariant (with table disjointness) is closed
under guarded swaps when a constraint set is supplied. -/
theorem swapStepOk_respects (c : PlanningConstraints)
    (hwf : ∀ g ∈ c.cohesive_groups, 2 ≤ g.participant_ids.card) :
    SwapStepOk (some c) (fun pl => ∀ s ∈ pl.sessions,
      TablesDisjoint s.tables ∧ RespectsCohesive s c ∧ RespectsExclusive s c) := by
  intro pl sid i pp j qq hpl hij hsid hi hj hp hq hcheck
  intro s hs
  unfold updateSession at hs
  rcases List.mem_or_eq_of_mem_set hs with hmem | rfl
  · exact hpl s hmem
  · obtain ⟨hdis, hcoh, hexc⟩ := hpl _ (getD_mem_sessions hsid)
    obtain ⟨hcoh2, hexc2⟩ := apply_swap_respects _ c i pp j qq hij hi hj hp hq hdis
      hwf hcoh hexc (hcheck c rfl)
    exact ⟨apply_swap_disjoint _ i pp j qq hij hi hj hp hq hdis, hcoh2, hexc2⟩

/-! ## Characterizing `PlanningConstraints.validate` -/

theorem foldl_emit_factor {α : Type} (P : α → Prop) [DecidablePred P] (e : ConstraintError) :
    ∀ (l : List α) (errs : List ConstraintError),
      l.foldl (fun acc x => if P x then acc ++ [e] else acc) errs
        = errs ++ l.foldl (fun acc x => if P x then acc ++ [e] else acc) [] := by
  intro l
  induction l with
  | nil => intro errs; simp
  | cons a t ih =>
    intro errs
    simp only [List.foldl_cons]
    by_cases hp : P a
    · rw [if_pos hp, if_pos hp, ih (errs ++ [e]), ih ([] ++ [e])]
      simp
    · rw [if_neg hp, if_neg hp, ih errs]

theorem foldl_emit_nil_iff {α : Type} (P : α → Prop) [DecidablePred P] (e : ConstraintError) :
    ∀ l : List α,
      l.foldl (fun acc x => if P x then acc ++ [e] else acc) [] = [] ↔ ∀ x ∈ l, ¬P x := by
  intro l
  induction l with
  | nil => simp
  | cons a t ih =>
    simp only [List.foldl_cons]
    by_cases hp : P a
    · rw [if_pos hp, foldl_emit_factor]
      simp [hp]
    · rw [if_neg hp]
      simp [hp, ih]

theorem validateConflictLoop_nil_iff (cohesive : List GroupConstraint) :
    ∀ (l : List GroupConstraint) (errs : List ConstraintError),
      validateConflictLoop cohesive l errs = [] ↔
        errs = [] ∧ ∀ eg ∈ l, ∀ cg ∈ cohesive,
          ¬2 ≤ (eg.participant_ids ∩ cg.participant_ids).card := by
  intro l
  induction l with
  | nil => intro errs; simp [validateConflictLoop]
  | cons eg t ih =>
    intro errs
    unfold validateConflictLoop
    rw [ih, foldl_emit_factor (fun cg => 2 ≤ (eg.participant_ids ∩ cg.participant_ids).card)
      ConstraintError.cohesiveExclusiveConflict cohesive errs]
    rw [List.append_eq_nil, foldl_emit_nil_iff]
    constructor
    · rintro ⟨⟨h1, h2⟩, h3⟩
      refine ⟨h1, ?_⟩
      intro eg2 heg2 cg hcg
      rcases List.mem_cons.mp heg2 with rfl | hmem
      · exact h2 cg hcg
      · exact h3 eg2 hmem cg hcg
    · rintro ⟨h1, h2⟩
      exact ⟨⟨h1, fun cg hcg => h2 eg (List.mem_cons_self _ _) cg hcg⟩,
        fun eg2 hmem cg hcg => h2 eg2 (List.mem_cons_of_mem _ hmem) cg hcg⟩

/-- The residual meaning of the first validation loop: no oversized
group, and each group disjoint from the accumulated earlier ids. -/
def cohesiveOkAux (x : ℕ) : List GroupConstraint → Finset ℕ → Prop
  | [], _ => True
  | g :: rest, seen =>
      ¬x < g.participant_ids.card ∧ ¬(seen ∩ g.participant_ids).Nonempty
        ∧ cohesiveOkAux x rest (seen ∪ g.participant_ids)

theorem validateCohesiveLoop_nil_iff (x : ℕ) :
    ∀ (l : List GroupConstraint) (errs : List ConstraintError) (seen : Finset ℕ),
      validateCohesiveLoop x l errs seen = [] ↔ errs = [] ∧ cohesiveOkAux x l seen := by
  intro l
  induction l with
  | nil => intro errs seen; simp [validateCohesiveLoop, cohesiveOkAux]
  | cons g t ih =>
    intro errs seen
    unfold validateCohesiveLoop
    rw [ih]
    by_cases h1 : x < g.participant_ids.card <;>
      by_cases h2 : (seen ∩ g.participant_ids).Nonempty <;>
        simp [h1, h2, cohesiveOkAux]

theorem cohesiveOkAux_iff (x : ℕ) :
    ∀ (l : List GroupConstraint) (seen : Finset ℕ),
      cohesiveOkAux x l seen ↔
        (∀ g ∈ l, g.participant_ids.card ≤ x)
          ∧ l.Pairwise (fun g h => Disjoint g.participant_ids h.participant_ids)
          ∧ ∀ g ∈ l, Disjoint seen g.participant_ids := by
  intro l
  induction l with
  | nil => intro seen; simp [cohesiveOkAux]
  | cons g t ih =>
    intro seen
    unfold cohesiveOkAux
    rw [ih (seen ∪ g.participant_ids)]
    simp only [List.mem_cons, List.pairwise_cons, not_lt,
      Finset.not_nonempty_iff_eq_empty, ← Finset.disjoint_iff_inter_eq_empty,
      Finset.disjoint_union_left]
    constructor
    · rintro ⟨hle, hseen, hsize, hpair, hdisj⟩
      refine ⟨?_, ⟨fun h hh => (hdisj h hh).2, hpair⟩, ?_⟩
      · rintro g2 (rfl | hg2)
        · exact hle
        · exact hsize g2 hg2
      · rintro g2 (rfl | hg2)
        · exact hseen
        · exact (hdisj g2 hg2).1
    · rintro ⟨hsize, ⟨hg, hpair⟩, hdisj⟩
      exact ⟨hsize g (Or.inl rfl), hdisj g (Or.inl rfl),
        fun g2 hg2 => hsize g2 (Or.inr hg2), hpair,
        fun g2 hg2 => ⟨hdisj g2 (Or.inr hg2), hg g2 hg2⟩⟩

/-- `PlanningConstraints.validate` returns no error exactly when every
cohesive group fits a table, the cohesive groups are pairwise disjoint,
and no exclusive group shares two members with a cohesive group. -/
theorem validate_nil_iff (c : PlanningConstraints) (config : PlanningConfig) :
    c.validate config = [] ↔
      (∀ g ∈ c.cohesive_groups, g.participant_ids.card ≤ config.x)
        ∧ c.cohesive_groups.Pairwise
            (fun g h => Disjoint g.participant_ids h.participant_ids)
        ∧ ∀ eg ∈ c.exclusive_groups, ∀ cg ∈ c.cohesive_groups,
            (eg.participant_ids ∩ cg.participant_ids).card ≤ 1 := by
  unfold PlanningConstraints.validate
  rw [validateConflictLoop_nil_iff, validateCohesiveLoop_nil_iff, cohesiveOkAux_iff]
  simp only [Finset.disjoint_empty_left, and_true, true_and, Nat.not_le, Nat.lt_succ_iff]
  tauto

/-! ## Properties of the baseline generator -/

theorem mem_foldl_union {l : List GroupConstraint} {x : ℕ} :
    ∀ {acc : Finset ℕ},
      x ∈ l.foldl (fun acc2 g => acc2 ∪ g.participant_ids) acc
        ↔ x ∈ acc ∨ ∃ g ∈ l, x ∈ g.participant_ids := by
  induction l with
  | nil => intro acc; simp
  | cons g t ih =>
    intro acc
    simp only [List.foldl_cons, ih, Finset.mem_union, List.mem_cons]
    constructor
    · rintro ((hx | hx) | ⟨g2, hg2, hx⟩)
      · exact Or.inl hx
      · exact Or.inr ⟨g, Or.inl rfl, hx⟩
      · exact Or.inr ⟨g2, Or.inr hg2, hx⟩
    · rintro (hx | ⟨g2, rfl | hg2, hx⟩)
      · exact Or.inl (Or.inl hx)
      · exact Or.inl (Or.inr hx)
      · exact Or.inr ⟨g2, hg2, hx⟩

theorem singletons_pairwise_disjoint {l : List ℕ} (h : l.Nodup) :
    (l.map fun i => ({i} : Finset ℕ)).Pairwise Disjoint := by
  rw [List.pairwise_map]
  exact h.imp fun hne => Finset.disjoint_singleton.mpr hne

theorem create_super_participants_pairwise (N : ℕ) (copt : Option PlanningConstraints)
    (hpair : ∀ c, copt = some c →
      c.cohesive_groups.Pairwise
        (fun g h => Disjoint g.participant_ids h.participant_ids)) :
    (_create_super_participants N copt).Pairwise Disjoint := by
  unfold _create_super_participants
  cases copt with
  | none => exact singletons_pairwise_disjoint (List.nodup_range N)
  | some c =>
    dsimp only
    by_cases hce : c.cohesive_groups.isEmpty
    · rw [if_pos hce]
      exact singletons_pairwise_disjoint (List.nodup_range N)
    · rw [if_neg hce]
      rw [List.pairwise_append]
      refine ⟨?_, ?_, ?_⟩
      · rw [List.pairwise_map]
        exact hpair c rfl
      · exact singletons_pairwise_disjoint ((List.nodup_range N).filter _)
      · intro u hu v hv
        obtain ⟨g, hg, rfl⟩ := List.mem_map.mp hu
        obtain ⟨i, hi, rfl⟩ := List.mem_map.mp hv
        rw [List.mem_filter] at hi
        rw [Finset.disjoint_singleton_right]
        intro hig
        have : i ∈ c.cohesive_groups.foldl (fun acc2 g2 => acc2 ∪ g2.participant_ids) ∅ :=
          mem_foldl_union.mpr (Or.inr ⟨g, hg, hig⟩)
        exact absurd this (by simpa using hi.2)

theorem create_super_participants_union (N : ℕ) (copt : Option PlanningConstraints)
    (hrange : ∀ c, copt = some c →
      ∀ g ∈ c.cohesive_groups, g.participant_ids ⊆ Finset.range N) :
    ∀ x, (∃ u ∈ _create_super_participants N copt, x ∈ u) ↔ x ∈ Finset.range N := by
  intro x
  unfold _create_super_participants
  cases copt with
  | none => simp
  | some c =>
    dsimp only
    by_cases hce : c.cohesive_groups.isEmpty
    · rw [if_pos hce]; simp
    · rw [if_neg hce]
      constructor
      · rintro ⟨u, hu, hx⟩
        rcases List.mem_append.mp hu with hu | hu
        · obtain ⟨g, hg, rfl⟩ := List.mem_map.mp hu
          exact hrange c rfl g hg hx
        · obtain ⟨i, hi, rfl⟩ := List.mem_map.mp hu
          rw [List.mem_filter] at hi
          rw [Finset.mem_singleton] at hx
          subst hx
          exact Finset.mem_range.mpr (List.mem_range.mp hi.1)
      · intro hx
        by_cases ha : x ∈ c.cohesive_groups.foldl (fun acc2 g2 => acc2 ∪ g2.participant_ids) ∅
        · obtain ⟨g, hg, hxg⟩ := (mem_foldl_union.mp ha).resolve_left (by simp)
          exact ⟨g.participant_ids, List.mem_append.mpr
            (Or.inl (List.mem_map.mpr ⟨g, hg, rfl⟩)), hxg⟩
        · refine ⟨{x}, List.mem_append.mpr (Or.inr ?_), Finset.mem_singleton_self x⟩
          refine List.mem_map.mpr ⟨x, ?_, rfl⟩
          rw [List.mem_filter]
          exact ⟨List.mem_range.mpr (Finset.mem_range.mp hx), by simpa using ha⟩

theorem create_super_participants_mem_cohesive {N : ℕ} {c : PlanningConstraints}
    {g : GroupConstraint} (hg : g ∈ c.cohesive_groups) :
    g.participant_ids ∈ _create_super_participants N (some c) := by
  unfold _create_super_participants
  dsimp only
  rw [if_neg (by rw [List.isEmpty_iff]; intro h; rw [h] at hg; cases hg)]
  exact List.mem_append.mpr (Or.inl (List.mem_map.mpr ⟨g, hg, rfl⟩))

theorem create_super_participants_exclusive_card {N : ℕ} {c : PlanningConstraints}
    (hconf : ∀ eg ∈ c.exclusive_groups, ∀ cg ∈ c.cohesive_groups,
      (eg.participant_ids ∩ cg.participant_ids).card ≤ 1) :
    ∀ u ∈ _create_super_participants N (some c), ∀ eg ∈ c.exclusive_groups,
      (u ∩ eg.participant_ids).card ≤ 1 := by
  intro u hu eg heg
  unfold _create_super_participants at hu
  dsimp only at hu
  have hsingle : ∀ i : ℕ, (({i} : Finset ℕ) ∩ eg.participant_ids).card ≤ 1 := by
    intro i
    exact le_trans (Finset.card_le_card (Finset.inter_subset_left)) (by simp)
  by_cases hce : c.cohesive_groups.isEmpty
  · rw [if_pos hce] at hu
    obtain ⟨i, -, rfl⟩ := List.mem_map.mp hu
    exact hsingle i
  · rw [if_neg hce] at hu
    rcases List.mem_append.mp hu with hu | hu
    · obtain ⟨g, hg, rfl⟩ := List.mem_map.mp hu
      rw [Finset.inter_comm]
      exact hconf eg heg g hg
    · obtain ⟨i, -, rfl⟩ := List.mem_map.mp hu
      exact hsingle i

theorem rotate_perm (l : List (Finset ℕ)) (n : ℕ) :
    (l.drop n ++ l.take n).Perm l := by
  have h : (l.drop n ++ l.take n).Perm (l.take n ++ l.drop n) := List.perm_append_comm
  rwa [List.take_append_drop] at h

theorem seekTable_lt (c : PlanningConstraints) (tables : List (Finset ℕ))
    (sp : Finset ℕ) (X : ℕ) (hX : 0 < X) :
    ∀ fuel tid, tid < X → (seekTable c tables sp X fuel tid).1 < X := by
  intro fuel
  induction fuel with
  | zero => intro tid htid; exact htid
  | succ n ih =>
    intro tid htid
    unfold seekTable
    split
    · exact ih _ (Nat.mod_lt _ hX)
    · exact htid

theorem seekTable_not_forced (c : PlanningConstraints) (tables : List (Finset ℕ))
    (sp : Finset ℕ) (X : ℕ) :
    ∀ fuel tid, (seekTable c tables sp X fuel tid).2 = false →
      _violates_exclusive_constraint
        (tables.getD (seekTable c tables sp X fuel tid).1 ∅) sp c = false := by
  intro fuel
  induction fuel with
  | zero => intro tid h; cases h
  | succ n ih =>
    intro tid h
    unfold seekTable at h ⊢
    split at h
    next hviol =>
      rw [if_pos hviol] at *
      exact ih _ h
    next hviol =>
      rw [if_neg hviol]
      exact Bool.of_not_eq_true hviol

theorem assignLoop_flag_mono (config : PlanningConfig)
    (copt : Option PlanningConstraints) :
    ∀ (sps : List (Finset ℕ)) (idx : ℕ) (tables : List (Finset ℕ)),
      (assignLoop config copt idx sps (tables, true)).2 = true := by
  intro sps
  induction sps with
  | nil => intro idx tables; rfl
  | cons sp rest ih =>
    intro idx tables
    unfold assignLoop
    dsimp only
    rw [Bool.true_or]
    exact ih _ _

theorem pickTable_lt (config : PlanningConfig) (copt : Option PlanningConstraints)
    (tables : List (Finset ℕ)) (idx : ℕ) (sp : Finset ℕ) (hX : 0 < config.X) :
    (pickTable config copt tables idx sp).1 < config.X := by
  unfold pickTable
  cases copt with
  | none => exact Nat.mod_lt _ hX
  | some c =>
    dsimp only
    split
    · exact Nat.mod_lt _ hX
    · exact seekTable_lt c tables sp config.X hX config.X (idx % config.X)
        (Nat.mod_lt _ hX)

/-- An unforced pick passes the exclusive-constraint test at its table. -/
theorem pickTable_not_forced {config : PlanningConfig} {c : PlanningConstraints}
    {tables : List (Finset ℕ)} {idx : ℕ} {sp : Finset ℕ}
    (h : (pickTable config (some c) tables idx sp).2 = false) :
    ∀ eg ∈ c.exclusive_groups,
      ¬(((tables.getD (pickTable config (some c) tables idx sp).1 ∅)
            ∩ eg.participant_ids).Nonempty
        ∧ (sp ∩ eg.participant_ids).Nonempty
        ∧ (tables.getD (pickTable config (some c) tables idx sp).1 ∅)
            ∩ eg.participant_ids ≠ sp ∩ eg.participant_ids) := by
  intro eg heg
  have hviol : _violates_exclusive_constraint
      (tables.getD (pickTable config (some c) tables idx sp).1 ∅) sp c = false := by
    unfold pickTable at h ⊢
    dsimp only at h ⊢
    split at h
    next hae =>
      rw [if_pos hae]
      unfold _violates_exclusive_constraint
      rw [List.any_eq_false]
      intro g hg
      rw [List.isEmpty_iff] at hae
      rw [hae] at hg
      cases hg
    next hae =>
      rw [if_neg hae]
      exact seekTable_not_forced c tables sp config.X config.X _ h
  unfold _violates_exclusive_constraint at hviol
  rw [List.any_eq_false] at hviol
  have h6 := hviol eg heg
  simp at h6
  rintro ⟨h1, h2, h3⟩
  rw [List.getD_eq_getElem?_getD] at h1 h3
  exact h3 (h6 h1 h2)

theorem assignLoop_partition (config : PlanningConfig)
    (copt : Option PlanningConstraints) (hX : 0 < config.X) :
    ∀ (sps : List (Finset ℕ)) (idx : ℕ) (st : List (Finset ℕ) × Bool),
      st.1.length = config.X →
      TablesDisjoint st.1 →
      sps.Pairwise Disjoint →
      (∀ sp ∈ sps, ∀ k, k < config.X → Disjoint sp (st.1.getD k ∅)) →
      ((assignLoop config copt idx sps st).1.length = config.X
        ∧ TablesDisjoint (assignLoop config copt idx sps st).1
        ∧ ∀ x, (x ∈ unionTables (assignLoop config copt idx sps st).1
            ↔ x ∈ unionTables st.1 ∨ ∃ sp ∈ sps, x ∈ sp)) := by
  intro sps
  induction sps with
  | nil =>
    intro idx st hlen hdis _ _
    refine ⟨hlen, hdis, fun x => ?_⟩
    simp [assignLoop]
  | cons sp rest ih =>
    intro idx st hlen hdis hpair hfresh
    have hpair2 := List.pairwise_cons.mp hpair
    set picked := pickTable config copt st.1 idx sp with hpicked
    have htid : picked.1 < config.X := pickTable_lt config copt st.1 idx sp hX
    have htid2 : picked.1 < st.1.length := by rw [hlen]; exact htid
    have hstep : assignLoop config copt idx (sp :: rest) st
        = assignLoop config copt (idx + 1) rest
            (st.1.set picked.1 (st.1.getD picked.1 ∅ ∪ sp), st.2 || picked.2) := rfl
    rw [hstep]
    have hlen2 : (st.1.set picked.1 (st.1.getD picked.1 ∅ ∪ sp)).length = config.X := by
      rw [List.length_set]; exact hlen
    have hgd : ∀ k, k < config.X →
        (st.1.set picked.1 (st.1.getD picked.1 ∅ ∪ sp)).getD k ∅
          = if k = picked.1 then st.1.getD picked.1 ∅ ∪ sp else st.1.getD k ∅ := by
      intro k hk
      by_cases hkp : k = picked.1
      · subst hkp
        rw [getD_set_self htid2, if_pos rfl]
      · rw [getD_set_ne (fun h => hkp h.symm), if_neg hkp]
    have hdis2 : TablesDisjoint (st.1.set picked.1 (st.1.getD picked.1 ∅ ∪ sp)) := by
      intro k hk l hl hkl
      rw [hlen2] at hk hl
      rw [hgd k hk, hgd l hl]
      by_cases hkp : k = picked.1 <;> by_cases hlp : l = picked.1
      · exact absurd (hkp.trans hlp.symm) hkl
      · rw [if_pos hkp, if_neg hlp]
        rw [Finset.disjoint_union_left]
        subst hkp
        exact ⟨hdis _ htid2 l (by rwa [hlen]) (fun h => hlp h.symm),
          hfresh sp (List.mem_cons_self _ _) l hl⟩
      · rw [if_neg hkp, if_pos hlp]
        rw [Finset.disjoint_union_right]
        subst hlp
        exact ⟨hdis k (by rwa [hlen]) _ htid2 hkp,
          (hfresh sp (List.mem_cons_self _ _) k hk).symm⟩
      · rw [if_neg hkp, if_neg hlp]
        exact hdis k (by rwa [hlen]) l (by rwa [hlen]) hkl
    have hfresh2 : ∀ sp2 ∈ rest, ∀ k, k < config.X →
        Disjoint sp2 ((st.1.set picked.1 (st.1.getD picked.1 ∅ ∪ sp)).getD k ∅) := by
      intro sp2 hsp2 k hk
      rw [hgd k hk]
      by_cases hkp : k = picked.1
      · rw [if_pos hkp]
        rw [Finset.disjoint_union_right]
        exact ⟨hfresh sp2 (List.mem_cons_of_mem _ hsp2) picked.1 htid,
          (hpair2.1 sp2 hsp2).symm⟩
      · rw [if_neg hkp]
        exact hfresh sp2 (List.mem_cons_of_mem _ hsp2) k hk
    obtain ⟨hlen3, hdis3, huni3⟩ := ih (idx + 1)
      (st.1.set picked.1 (st.1.getD picked.1 ∅ ∪ sp), st.2 || picked.2)
      hlen2 hdis2 hpair2.2 hfresh2
    refine ⟨hlen3, hdis3, fun x => ?_⟩
    rw [huni3 x]
    have hmemset : x ∈ unionTables (st.1.set picked.1 (st.1.getD picked.1 ∅ ∪ sp))
        ↔ x ∈ unionTables st.1 ∨ x ∈ sp := by
      rw [mem_unionTables_index, mem_unionTables_index]
      constructor
      · rintro ⟨k, hk, hx⟩
        rw [hlen2] at hk
        rw [hgd k hk] at hx
        by_cases hkp : k = picked.1
        · rw [if_pos hkp] at hx
          rcases Finset.mem_union.mp hx with hx | hx
          · exact Or.inl ⟨picked.1, htid2, hx⟩
          · exact Or.inr hx
        · rw [if_neg hkp] at hx
          exact Or.inl ⟨k, by rwa [hlen], hx⟩
      · rintro (⟨k, hk, hx⟩ | hx)
        · refine ⟨k, by rwa [hlen2, ← hlen], ?_⟩
          rw [hgd k (by rwa [← hlen])]
          by_cases hkp : k = picked.1
          · rw [if_pos hkp]
            rw [hkp] at hx
            exact Finset.mem_union_left _ hx
          · rw [if_neg hkp]
            exact hx
        · refine ⟨picked.1, by rwa [hlen2], ?_⟩
          rw [hgd picked.1 htid, if_pos rfl]
          exact Finset.mem_union_right _ hx
    rw [hmemset]
    simp only [List.mem_cons]
    constructor
    · rintro ((hx | hx) | ⟨sp2, hsp2, hx⟩)
      · exact Or.inl hx
      · exact Or.inr ⟨sp, Or.inl rfl, hx⟩
      · exact Or.inr ⟨sp2, Or.inr hsp2, hx⟩
    · rintro (hx | ⟨sp2, rfl | hsp2, hx⟩)
      · exact Or.inl (Or.inl hx)
      · exact Or.inl (Or.inr hx)
      · exact Or.inr ⟨sp2, hsp2, hx⟩

theorem assignLoop_mono (config : PlanningConfig)
    (copt : Option PlanningConstraints) (hX : 0 < config.X) :
    ∀ (sps : List (Finset ℕ)) (idx : ℕ) (st : List (Finset ℕ) × Bool),
      st.1.length = config.X →
      ∀ k, k < config.X →
        st.1.getD k ∅ ⊆ (assignLoop config copt idx sps st).1.getD k ∅ := by
  intro sps
  induction sps with
  | nil => intro idx st _ k _; exact fun x hx => hx
  | cons sp rest ih =>
    intro idx st hlen k hk
    set picked := pickTable config copt st.1 idx sp with hpicked
    have htid : picked.1 < config.X := pickTable_lt config copt st.1 idx sp hX
    have htid2 : picked.1 < st.1.length := by rw [hlen]; exact htid
    have hstep : assignLoop config copt idx (sp :: rest) st
        = assignLoop config copt (idx + 1) rest
            (st.1.set picked.1 (st.1.getD picked.1 ∅ ∪ sp), st.2 || picked.2) := rfl
    rw [hstep]
    have hlen2 : (st.1.set picked.1 (st.1.getD picked.1 ∅ ∪ sp)).length = config.X := by
      rw [List.length_set]; exact hlen
    refine subset_trans ?_ (ih (idx + 1)
      (st.1.set picked.1 (st.1.getD picked.1 ∅ ∪ sp), st.2 || picked.2) hlen2 k hk)
    by_cases hkp : k = picked.1
    · subst hkp
      rw [getD_set_self htid2]
      exact Finset.subset_union_left
    · rw [getD_set_ne (fun h => hkp h.symm)]

theorem assignLoop_placed (config : PlanningConfig)
    (copt : Option PlanningConstraints) (hX : 0 < config.X) :
    ∀ (sps : List (Finset ℕ)) (idx : ℕ) (st : List (Finset ℕ) × Bool),
      st.1.length = config.X →
      ∀ sp ∈ sps, ∃ k, k < config.X
        ∧ sp ⊆ (assignLoop config copt idx sps st).1.getD k ∅ := by
  intro sps
  induction sps with
  | nil => intro idx st _ sp hsp; cases hsp
  | cons sp0 rest ih =>
    intro idx st hlen sp hsp
    set picked := pickTable config copt st.1 idx sp0 with hpicked
    have htid : picked.1 < config.X := pickTable_lt config copt st.1 idx sp0 hX
    have htid2 : picked.1 < st.1.length := by rw [hlen]; exact htid
    have hstep : assignLoop config copt idx (sp0 :: rest) st
        = assignLoop config copt (idx + 1) rest
            (st.1.set picked.1 (st.1.getD picked.1 ∅ ∪ sp0), st.2 || picked.2) := rfl
    rw [hstep]
    have hlen2 : (st.1.set picked.1 (st.1.getD picked.1 ∅ ∪ sp0)).length = config.X := by
      rw [List.length_set]; exact hlen
    rcases List.mem_cons.mp hsp with rfl | hsp2
    · refine ⟨picked.1, htid, ?_⟩
      refine subset_trans ?_ (assignLoop_mono config copt hX rest (idx + 1)
        (st.1.set picked.1 (st.1.getD picked.1 ∅ ∪ sp), st.2 || picked.2)
        hlen2 picked.1 htid)
      rw [getD_set_self htid2]
      exact Finset.subset_union_right
    · exact ih (idx + 1)
        (st.1.set picked.1 (st.1.getD picked.1 ∅ ∪ sp0), st.2 || picked.2) hlen2 sp hsp2

theorem assignLoop_exclusive (config : PlanningConfig) (c : PlanningConstraints)
    (hX : 0 < config.X) :
    ∀ (sps : List (Finset ℕ)) (idx : ℕ) (st : List (Finset ℕ) × Bool),
      st.1.length = config.X →
      sps.Pairwise Disjoint →
      (∀ sp ∈ sps, ∀ k, k < config.X → Disjoint sp (st.1.getD k ∅)) →
      (∀ sp ∈ sps, ∀ eg ∈ c.exclusive_groups, (sp ∩ eg.participant_ids).card ≤ 1) →
      (∀ k, k < config.X → ∀ eg ∈ c.exclusive_groups,
        ((st.1.getD k ∅) ∩ eg.participant_ids).card ≤ 1) →
      (assignLoop config (some c) idx sps st).2 = false →
      ∀ k, k < config.X → ∀ eg ∈ c.exclusive_groups,
        (((assignLoop config (some c) idx sps st).1.getD k ∅)
          ∩ eg.participant_ids).card ≤ 1 := by
  intro sps
  induction sps with
  | nil => intro idx st _ _ _ _ hexc _ k hk; exact hexc k hk
  | cons sp rest ih =>
    intro idx st hlen hpair hfresh hspexc hexc hflag k hk
    have hpair2 := List.pairwise_cons.mp hpair
    set picked := pickTable config (some c) st.1 idx sp with hpicked
    have htid : picked.1 < config.X := pickTable_lt config (some c) st.1 idx sp hX
    have htid2 : picked.1 < st.1.length := by rw [hlen]; exact htid
    have hstep : assignLoop config (some c) idx (sp :: rest) st
        = assignLoop config (some c) (idx + 1) rest
            (st.1.set picked.1 (st.1.getD picked.1 ∅ ∪ sp), st.2 || picked.2) := rfl
    rw [hstep] at hflag ⊢
    -- this step was not forced
    have hpick2 : picked.2 = false := by
      by_contra hp2
      rw [Bool.not_eq_false] at hp2
      rw [show (st.2 || picked.2) = true by rw [hp2, Bool.or_true]] at hflag
      rw [assignLoop_flag_mono config (some c) rest (idx + 1)
        (st.1.set picked.1 (st.1.getD picked.1 ∅ ∪ sp))] at hflag
      cases hflag
    have hlen2 : (st.1.set picked.1 (st.1.getD picked.1 ∅ ∪ sp)).length = config.X := by
      rw [List.length_set]; exact hlen
    have hgd : ∀ m, m < config.X →
        (st.1.set picked.1 (st.1.getD picked.1 ∅ ∪ sp)).getD m ∅
          = if m = picked.1 then st.1.getD picked.1 ∅ ∪ sp else st.1.getD m ∅ := by
      intro m hm
      by_cases hmp : m = picked.1
      · subst hmp
        rw [getD_set_self htid2, if_pos rfl]
      · rw [getD_set_ne (fun h => hmp h.symm), if_neg hmp]
    have hfresh2 : ∀ sp2 ∈ rest, ∀ m, m < config.X →
        Disjoint sp2 ((st.1.set picked.1 (st.1.getD picked.1 ∅ ∪ sp)).getD m ∅) := by
      intro sp2 hsp2 m hm
      rw [hgd m hm]
      by_cases hmp : m = picked.1
      · rw [if_pos hmp]
        rw [Finset.disjoint_union_right]
        exact ⟨hfresh sp2 (List.mem_cons_of_mem _ hsp2) picked.1 htid,
          (hpair2.1 sp2 hsp2).symm⟩
      · rw [if_neg hmp]
        exact hfresh sp2 (List.mem_cons_of_mem _ hsp2) m hm
    have hexc2 : ∀ m, m < config.X → ∀ eg ∈ c.exclusive_groups,
        (((st.1.set picked.1 (st.1.getD picked.1 ∅ ∪ sp)).getD m ∅)
          ∩ eg.participant_ids).card ≤ 1 := by
      intro m hm eg heg
      rw [hgd m hm]
      by_cases hmp : m = picked.1
      · rw [if_pos hmp]
        have hnotforced := @pickTable_not_forced config c st.1 idx sp
          (by rw [← hpicked]; exact hpick2) eg heg
        rw [← hpicked] at hnotforced
        rw [Finset.union_inter_distrib_right]
        have hdisj_tm_nm : Disjoint (st.1.getD picked.1 ∅ ∩ eg.participant_ids)
            (sp ∩ eg.participant_ids) :=
          Finset.disjoint_of_subset_left Finset.inter_subset_left
            (Finset.disjoint_of_subset_right Finset.inter_subset_left
              (hfresh sp (List.mem_cons_self _ _) picked.1 htid).symm)
        by_cases htm : ((st.1.getD picked.1 ∅) ∩ eg.participant_ids).Nonempty
        · by_cases hnm : (sp ∩ eg.participant_ids).Nonempty
          · exfalso
            refine hnotforced ⟨htm, hnm, ?_⟩
            intro heqtm
            obtain ⟨y, hy⟩ := htm
            exact Finset.disjoint_left.mp hdisj_tm_nm hy (heqtm ▸ hy)
          · rw [Finset.not_nonempty_iff_eq_empty] at hnm
            rw [hnm, Finset.union_empty]
            exact hexc picked.1 htid eg heg
        · rw [Finset.not_nonempty_iff_eq_empty] at htm
          rw [htm, Finset.empty_union]
          exact hspexc sp (List.mem_cons_self _ _) eg heg
      · rw [if_neg hmp]
        exact hexc m hm eg heg
    refine ih (idx + 1)
      (st.1.set picked.1 (st.1.getD picked.1 ∅ ∪ sp), st.2 || picked.2)
      hlen2 hpair2.2 hfresh2
      (fun sp2 hsp2 => hspexc sp2 (List.mem_cons_of_mem _ hsp2)) hexc2 ?_ k hk
    exact hflag

theorem validate_config_ok_facts {config : PlanningConfig}
    (h : validate_config config = .ok ()) :
    2 ≤ config.N ∧ 1 ≤ config.X ∧ 2 ≤ config.x ∧ 1 ≤ config.S
      ∧ config.N ≤ config.X * config.x := by
  unfold validate_config at h
  split_ifs at h with h1 h2 h3 h4 h5
  exact ⟨Nat.le_of_not_lt h1, Nat.le_of_not_lt h2, Nat.le_of_not_lt h3,
    Nat.le_of_not_lt h4, Nat.le_of_not_lt h5⟩

theorem generate_baseline_ok_inversion {config : PlanningConfig} {seed : ℕ}
    {copt : Option PlanningConstraints} {plan : Planning}
    (h : generate_baseline config seed copt = .ok plan) :
    validate_config config = .ok ()
      ∧ (∀ c, copt = some c → c.validate config = [])
      ∧ plan = ⟨(List.range config.S).map
          (fun sid => ⟨sid, (baselineSession config
            (_create_super_participants config.N copt) copt sid).1⟩), config⟩ := by
  unfold generate_baseline at h
  split at h
  · cases h
  next hval =>
    cases copt with
    | none =>
      cases h
      refine ⟨hval, ?_, rfl⟩
      intro c2 hc2
      cases hc2
    | some c =>
      dsimp only at h
      split at h
      next hempty =>
        cases h
        refine ⟨hval, ?_, rfl⟩
        intro c2 hc2
        cases hc2
        exact List.isEmpty_iff.mp hempty
      · cases h

theorem getD_replicate_empty (n k : ℕ) :
    (List.replicate n (∅ : Finset ℕ)).getD k ∅ = ∅ := by
  rw [List.getD_eq_getElem?_getD]
  by_cases hk : k < n
  · rw [List.getElem?_eq_getElem (by simpa using hk)]
    simp [List.getElem_replicate]
  · rw [List.getElem?_eq_none (by simpa using Nat.le_of_not_lt hk)]
    rfl

theorem unionTables_replicate_empty (n : ℕ) :
    unionTables (List.replicate n (∅ : Finset ℕ)) = ∅ := by
  ext x
  rw [mem_unionTables]
  simp only [Finset.not_mem_empty, iff_false]
  rintro ⟨t, ht, hx⟩
  rw [List.eq_of_mem_replicate ht] at hx
  cases hx

/-- The tables built for one baseline session from pairwise-disjoint
units form disjoint tables whose union is the union of the units; every
unit ends up inside a single table. -/
theorem baselineSession_facts (config : PlanningConfig)
    (copt : Option PlanningConstraints) (sid : ℕ) (hX : 0 < config.X)
    (sps : List (Finset ℕ)) (hpair : sps.Pairwise Disjoint) :
    (baselineSession config sps copt sid).1.length = config.X
      ∧ TablesDisjoint (baselineSession config sps copt sid).1
      ∧ (∀ x, x ∈ unionTables (baselineSession config sps copt sid).1
          ↔ ∃ u ∈ sps, x ∈ u)
      ∧ ∀ u ∈ sps, ∃ k, k < config.X
          ∧ u ⊆ (baselineSession config sps copt sid).1.getD k ∅ := by
  unfold baselineSession _assign_tables_with_constraints
  set stride := if 1 < sps.length then (sid * 17 + 1) % sps.length else 1 with hstride
  set rotated := sps.drop stride ++ sps.take stride with hrot
  have hperm : rotated.Perm sps := rotate_perm sps stride
  have hpair2 : rotated.Pairwise Disjoint :=
    (hperm.pairwise_iff (fun {_ _} h => Disjoint.symm h)).mpr hpair
  have hinit_len : (List.replicate config.X (∅ : Finset ℕ)).length = config.X := by
    simp
  have hinit_dis : TablesDisjoint (List.replicate config.X (∅ : Finset ℕ)) := by
    intro k hk l hl hkl
    rw [getD_replicate_empty]
    exact Finset.disjoint_empty_left _
  have hinit_fresh : ∀ sp ∈ rotated, ∀ k, k < config.X →
      Disjoint sp ((List.replicate config.X (∅ : Finset ℕ)).getD k ∅) := by
    intro sp _ k _
    rw [getD_replicate_empty]
    exact Finset.disjoint_empty_right _
  obtain ⟨hlen, hdis, huni⟩ := assignLoop_partition config copt hX rotated 0
    (List.replicate config.X ∅, false) hinit_len hinit_dis hpair2 hinit_fresh
  refine ⟨hlen, hdis, ?_, ?_⟩
  · intro x
    rw [huni x, unionTables_replicate_empty]
    simp only [Finset.not_mem_empty, false_or]
    constructor
    · rintro ⟨u, hu, hx⟩
      exact ⟨u, hperm.mem_iff.mp hu, hx⟩
    · rintro ⟨u, hu, hx⟩
      exact ⟨u, hperm.mem_iff.mpr hu, hx⟩
  · intro u hu
    exact assignLoop_placed config copt hX rotated 0 (List.replicate config.X ∅, false)
      hinit_len u (hperm.mem_iff.mpr hu)

/-- When a session's assignment raised no forced-placement warning, no
table holds two members of one exclusive group. -/
theorem baselineSession_exclusive (config : PlanningConfig) (c : PlanningConstraints)
    (sid : ℕ) (hX : 0 < config.X) (sps : List (Finset ℕ))
    (hpair : sps.Pairwise Disjoint)
    (hspexc : ∀ sp ∈ sps, ∀ eg ∈ c.exclusive_groups,
      (sp ∩ eg.participant_ids).card ≤ 1)
    (hflag : (baselineSession config sps (some c) sid).2 = false) :
    ∀ k, k < config.X → ∀ eg ∈ c.exclusive_groups,
      (((baselineSession config sps (some c) sid).1.getD k ∅)
        ∩ eg.participant_ids).card ≤ 1 := by
  unfold baselineSession _assign_tables_with_constraints at hflag ⊢
  set stride := if 1 < sps.length then (sid * 17 + 1) % sps.length else 1 with hstride
  set rotated := sps.drop stride ++ sps.take stride with hrot
  have hperm : rotated.Perm sps := rotate_perm sps stride
  have hpair2 : rotated.Pairwise Disjoint :=
    (hperm.pairwise_iff (fun {_ _} h => Disjoint.symm h)).mpr hpair
  refine assignLoop_exclusive config c hX rotated 0 (List.replicate config.X ∅, false)
    (by simp) hpair2 ?_ ?_ ?_ hflag
  · intro sp _ k _
    rw [getD_replicate_empty]
    exact Finset.disjoint_empty_right _
  · intro sp hsp eg heg
    exact hspexc sp (hperm.mem_iff.mp hsp) eg heg
  · intro k _ eg _
    rw [getD_replicate_empty]
    simp

/-- C2-facing fact: a successfully generated baseline partitions the
roster in every session (given a valid constraint set whose members all
lie in the roster). -/
theorem generate_baseline_partition {config : PlanningConfig} {seed : ℕ}
    {copt : Option PlanningConstraints} {plan : Planning}
    (hok : generate_baseline config seed copt = .ok plan)
    (hrange : ∀ c, copt = some c →
      ∀ g ∈ c.cohesive_groups, g.participant_ids ⊆ Finset.range config.N) :
    ∀ s ∈ plan.sessions, SessionPartition s config.N := by
  obtain ⟨hval, hcval, rfl⟩ := generate_baseline_ok_inversion hok
  obtain ⟨-, hX, -, -, -⟩ := validate_config_ok_facts hval
  have hpairc : ∀ c, copt = some c →
      c.cohesive_groups.Pairwise
        (fun g h => Disjoint g.participant_ids h.participant_ids) := by
    intro c hc
    exact ((validate_nil_iff c config).mp (hcval c hc)).2.1
  have hpair := create_super_participants_pairwise config.N copt hpairc
  have huni := create_super_participants_union config.N copt hrange
  intro s hs
  obtain ⟨sid, -, rfl⟩ := List.mem_map.mp hs
  obtain ⟨hlen, hdis, huni2, -⟩ := baselineSession_facts config copt sid hX
    (_create_super_participants config.N copt) hpair
  refine ⟨hdis, ?_⟩
  ext x
  rw [huni2 x, huni x]

/-- C4-facing fact: a successfully generated baseline that logged no
forced-placement warning respects every cohesive and exclusive group in
every session. -/
theorem generate_baseline_respects {config : PlanningConfig} {seed : ℕ}
    {c : PlanningConstraints} {plan : Planning}
    (hok : generate_baseline config seed (some c) = .ok plan)
    (hforced : generate_baseline_forced config (some c) = false) :
    ∀ s ∈ plan.sessions,
      TablesDisjoint s.tables ∧ RespectsCohesive s c ∧ RespectsExclusive s c := by
  obtain ⟨hval, hcval, rfl⟩ := generate_baseline_ok_inversion hok
  obtain ⟨-, hX, -, -, -⟩ := validate_config_ok_facts hval
  obtain ⟨-, hpairc, hconf⟩ := (validate_nil_iff c config).mp (hcval c rfl)
  have hpair := create_super_participants_pairwise config.N (some c)
    (fun c2 hc2 => by cases hc2; exact hpairc)
  intro s hs
  obtain ⟨sid, hsid, rfl⟩ := List.mem_map.mp hs
  obtain ⟨hlen, hdis, -, hplaced⟩ := baselineSession_facts config (some c) sid hX
    (_create_super_participants config.N (some c)) hpair
  refine ⟨hdis, ?_, ?_⟩
  · intro g hg
    obtain ⟨k, hk, hsub⟩ := hplaced g.participant_ids
      (create_super_participants_mem_cohesive hg)
    exact exists_mem_iff_index.mpr ⟨k, by rwa [hlen], hsub⟩
  · intro g hg
    rw [forall_mem_iff_index]
    intro k hk
    have hflag : (baselineSession config
        (_create_super_participants config.N (some c)) (some c) sid).2 = false := by
      unfold generate_baseline_forced at hforced
      rw [List.any_eq_false] at hforced
      have := hforced sid (by simpa using hsid)
      simpa using this
    exact baselineSession_exclusive config c sid hX
      (_create_super_participants config.N (some c)) hpair
      (create_super_participants_exclusive_card hconf)
      hflag k (by rwa [hlen] at hk) g hg

theorem generate_optimized_planning_ok_inversion {config : PlanningConfig} {seed : ℕ}
    {copt : Option PlanningConstraints} {parts : Option (List Participant)}
    {plan : Planning} {metrics : PlanningMetrics}
    (h : generate_optimized_planning config seed copt parts = .ok (plan, metrics)) :
    ∃ baseline improved, generate_baseline config seed copt = .ok baseline
      ∧ (improved = baseline
          ∨ improve_planning baseline config (if config.N < 20 then 50 else 20) copt
              = .ok improved)
      ∧ enforce_equity improved config copt parts 2 = .ok plan := by
  unfold generate_optimized_planning at h
  cases hv : validate_config config with
  | error e => rw [hv] at h; cases h
  | ok u =>
    cases u
    rw [hv] at h
    dsimp only at h
    split at h
    · split at h
      · cases h
      next baseline hb =>
        split at h
        · cases h
        next mb hmb =>
          by_cases hn : 50 ≤ config.N
          · rw [if_pos hn] at h
            try dsimp only at h
            split at h
            · cases h
            next mi hmi =>
              split at h
              · cases h
              next equitable he =>
                split at h
                · cases h
                · cases h
                  exact ⟨baseline, baseline, hb, Or.inl rfl, he⟩
          · rw [if_neg hn] at h
            try dsimp only at h
            split at h
            · cases h
            next improved himp2 =>
              split at h
              · cases h
              next mi hmi =>
                split at h
                · cases h
                next equitable he =>
                  split at h
                  · cases h
                  · cases h
                    exact ⟨baseline, improved, hb, Or.inr himp2, he⟩
    · cases h

/-- C2: for every valid configuration, and valid constraint set whose
member identifiers all lie in `[0, N)` when one is present, every round
of the baseline plan partitions the roster `{0, …, N-1}` into
pairwise-disjoint tables; `improve_planning` and `enforce_equity`
preserve that partition, and the full pipeline's final plan has it too
(no participant is duplicated or missing in any round). -/
theorem plan_rounds_partition_roster (config : PlanningConfig) (seed : ℕ)
    (copt : Option PlanningConstraints)
    (hrange : ∀ c, copt = some c →
      ∀ g ∈ c.cohesive_groups, g.participant_ids ⊆ Finset.range config.N) :
    (∀ plan, generate_baseline config seed copt = .ok plan →
        ∀ s ∈ plan.sessions, SessionPartition s config.N)
      ∧ (∀ p q n, (∀ s ∈ p.sessions, SessionPartition s config.N) →
          improve_planning p config n copt = .ok q →
          ∀ s ∈ q.sessions, SessionPartition s config.N)
      ∧ (∀ p q parts vmax, (∀ s ∈ p.sessions, SessionPartition s config.N) →
          enforce_equity p config copt parts vmax = .ok q →
          ∀ s ∈ q.sessions, SessionPartition s config.N)
      ∧ ∀ plan metrics parts,
          generate_optimized_planning config seed copt parts = .ok (plan, metrics) →
          ∀ s ∈ plan.sessions, SessionPartition s config.N := by
  have hbase : ∀ plan, generate_baseline config seed copt = .ok plan →
      ∀ s ∈ plan.sessions, SessionPartition s config.N :=
    fun plan hok => generate_baseline_partition hok hrange
  have himp : ∀ p q n, (∀ s ∈ p.sessions, SessionPartition s config.N) →
      improve_planning p config n copt = .ok q →
      ∀ s ∈ q.sessions, SessionPartition s config.N :=
    fun p q n hp hok => improve_planning_inv (swapStepOk_partition config.N copt) hp hok
  have henf : ∀ p q parts vmax, (∀ s ∈ p.sessions, SessionPartition s config.N) →
      enforce_equity p config copt parts vmax = .ok q →
      ∀ s ∈ q.sessions, SessionPartition s config.N :=
    fun p q parts vmax hp hok =>
      enforce_equity_inv (swapStepOk_partition config.N copt) hp hok
  refine ⟨hbase, himp, henf, ?_⟩
  intro plan metrics parts hok
  obtain ⟨baseline, improved, hb, hi, he⟩ := generate_optimized_planning_ok_inversion hok
  have h1 := hbase baseline hb
  have h2 : ∀ s ∈ improved.sessions, SessionPartition s config.N := by
    rcases hi with rfl | hi
    · exact h1
    · exact himp baseline improved _ h1 hi
  exact henf improved plan parts 2 h2 he

/-- Witness for C2 at `N=4, X=2, x=2, S=1` with the Together group
`{0, 1}`. -/
theorem plan_rounds_partition_roster_witness :
    (∀ plan, generate_baseline ⟨4, 2, 2, 1⟩ 42
          (some ⟨[⟨"G", .must_be_together, {0, 1}⟩], []⟩) = .ok plan →
        ∀ s ∈ plan.sessions, SessionPartition s (4 : ℕ))
      ∧ (∀ p q n, (∀ s ∈ p.sessions, SessionPartition s (4 : ℕ)) →
          improve_planning p ⟨4, 2, 2, 1⟩ n
              (some ⟨[⟨"G", .must_be_together, {0, 1}⟩], []⟩) = .ok q →
          ∀ s ∈ q.sessions, SessionPartition s (4 : ℕ))
      ∧ (∀ p q parts vmax, (∀ s ∈ p.sessions, SessionPartition s (4 : ℕ)) →
          enforce_equity p ⟨4, 2, 2, 1⟩
              (some ⟨[⟨"G", .must_be_together, {0, 1}⟩], []⟩) parts vmax = .ok q →
          ∀ s ∈ q.sessions, SessionPartition s (4 : ℕ))
      ∧ ∀ plan metrics parts,
          generate_optimized_planning ⟨4, 2, 2, 1⟩ 42
              (some ⟨[⟨"G", .must_be_together, {0, 1}⟩], []⟩) parts
            = .ok (plan, metrics) →
          ∀ s ∈ plan.sessions, SessionPartition s (4 : ℕ) :=
  plan_rounds_partition_roster ⟨4, 2, 2, 1⟩ 42
    (some ⟨[⟨"G", .must_be_together, {0, 1}⟩], []⟩)
    (by intro c hc; cases hc; decide)

/-- C4: with a valid configuration and a valid constraint set (whose
groups each name ≥ 2 participants, as the `GroupConstraint` constructor
guarantees), if baseline generation would log no forced-placement
warning, then every round of the baseline keeps each Together group at
one table and never seats two members of a Separate group together; both
later phases preserve this, and so the pipeline's final plan satisfies
it as well. -/
theorem plan_rounds_respect_constraints (config : PlanningConfig) (seed : ℕ)
    (c : PlanningConstraints)
    (hwf : ∀ g ∈ c.cohesive_groups, 2 ≤ g.participant_ids.card)
    (hforced : generate_baseline_forced config (some c) = false) :
    (∀ plan, generate_baseline config seed (some c) = .ok plan →
        ∀ s ∈ plan.sessions,
          TablesDisjoint s.tables ∧ RespectsCohesive s c ∧ RespectsExclusive s c)
      ∧ (∀ p q n, (∀ s ∈ p.sessions,
            TablesDisjoint s.tables ∧ RespectsCohesive s c ∧ RespectsExclusive s c) →
          improve_planning p config n (some c) = .ok q →
          ∀ s ∈ q.sessions,
            TablesDisjoint s.tables ∧ RespectsCohesive s c ∧ RespectsExclusive s c)
      ∧ (∀ p q parts vmax, (∀ s ∈ p.sessions,
            TablesDisjoint s.tables ∧ RespectsCohesive s c ∧ RespectsExclusive s c) →
          enforce_equity p config (some c) parts vmax = .ok q →
          ∀ s ∈ q.sessions,
            TablesDisjoint s.tables ∧ RespectsCohesive s c ∧ RespectsExclusive s c)
      ∧ ∀ plan metrics parts,
          generate_optimized_planning config seed (some c) parts = .ok (plan, metrics) →
          ∀ s ∈ plan.sessions, RespectsCohesive s c ∧ RespectsExclusive s c := by
  have hbase := fun plan hok =>
    @generate_baseline_respects config seed c plan hok hforced
  have himp : ∀ p q n, (∀ s ∈ p.sessions,
      TablesDisjoint s.tables ∧ RespectsCohesive s c ∧ RespectsExclusive s c) →
      improve_planning p config n (some c) = .ok q →
      ∀ s ∈ q.sessions,
        TablesDisjoint s.tables ∧ RespectsCohesive s c ∧ RespectsExclusive s c :=
    fun p q n hp hok => improve_planning_inv (swapStepOk_respects c hwf) hp hok
  have henf : ∀ p q parts vmax, (∀ s ∈ p.sessions,
      TablesDisjoint s.tables ∧ RespectsCohesive s c ∧ RespectsExclusive s c) →
      enforce_equity p config (some c) parts vmax = .ok q →
      ∀ s ∈ q.sessions,
        TablesDisjoint s.tables ∧ RespectsCohesive s c ∧ RespectsExclusive s c :=
    fun p q parts vmax hp hok => enforce_equity_inv (swapStepOk_respects c hwf) hp hok
  refine ⟨hbase, himp, henf, ?_⟩
  intro plan metrics parts hok
  obtain ⟨baseline, improved, hb, hi, he⟩ := generate_optimized_planning_ok_inversion hok
  have h1 := hbase baseline hb
  have h2 : ∀ s ∈ improved.sessions,
      TablesDisjoint s.tables ∧ RespectsCohesive s c ∧ RespectsExclusive s c := by
    rcases hi with rfl | hi
    · exact h1
    · exact himp baseline improved _ h1 hi
  intro s hs
  exact (henf improved plan parts 2 h2 he s hs).2

/-- Witness for C4 at `N=4, X=2, x=2, S=1` with Together group `{0, 1}`
and Separate group `{2, 3}`. -/
theorem plan_rounds_respect_constraints_witness :
    (∀ plan, generate_baseline ⟨4, 2, 2, 1⟩ 42
          (some ⟨[⟨"G", .must_be_together, {0, 1}⟩],
                 [⟨"H", .must_be_separate, {2, 3}⟩]⟩) = .ok plan →
        ∀ s ∈ plan.sessions,
          TablesDisjoint s.tables
            ∧ RespectsCohesive s ⟨[⟨"G", .must_be_together, {0, 1}⟩],
                [⟨"H", .must_be_separate, {2, 3}⟩]⟩
            ∧ RespectsExclusive s ⟨[⟨"G", .must_be_together, {0, 1}⟩],
                [⟨"H", .must_be_separate, {2, 3}⟩]⟩)
      ∧ (∀ p q n, (∀ s ∈ p.sessions,
            TablesDisjoint s.tables
              ∧ RespectsCohesive s ⟨[⟨"G", .must_be_together, {0, 1}⟩],
                  [⟨"H", .must_be_separate, {2, 3}⟩]⟩
              ∧ RespectsExclusive s ⟨[⟨"G", .must_be_together, {0, 1}⟩],
                  [⟨"H", .must_be_separate, {2, 3}⟩]⟩) →
          improve_planning p ⟨4, 2, 2, 1⟩ n
              (some ⟨[⟨"G", .must_be_together, {0, 1}⟩],
                     [⟨"H", .must_be_separate, {2, 3}⟩]⟩) = .ok q →
          ∀ s ∈ q.sessions,
            TablesDisjoint s.tables
              ∧ RespectsCohesive s ⟨[⟨"G", .must_be_together, {0, 1}⟩],
                  [⟨"H", .must_be_separate, {2, 3}⟩]⟩
              ∧ RespectsExclusive s ⟨[⟨"G", .must_be_together, {0, 1}⟩],
                  [⟨"H", .must_be_separate, {2, 3}⟩]⟩)
      ∧ (∀ p q parts vmax, (∀ s ∈ p.sessions,
            TablesDisjoint s.tables
              ∧ RespectsCohesive s ⟨[⟨"G", .must_be_together, {0, 1}⟩],
                  [⟨"H", .must_be_separate, {2, 3}⟩]⟩
              ∧ RespectsExclusive s ⟨[⟨"G", .must_be_together, {0, 1}⟩],
                  [⟨"H", .must_be_separate, {2, 3}⟩]⟩) →
          enforce_equity p ⟨4, 2, 2, 1⟩
              (some ⟨[⟨"G", .must_be_together, {0, 1}⟩],
                     [⟨"H", .must_be_separate, {2, 3}⟩]⟩) parts vmax = .ok q →
          ∀ s ∈ q.sessions,
            TablesDisjoint s.tables
              ∧ RespectsCohesive s ⟨[⟨"G", .must_be_together, {0, 1}⟩],
                  [⟨"H", .must_be_separate, {2, 3}⟩]⟩
              ∧ RespectsExclusive s ⟨[⟨"G", .must_be_together, {0, 1}⟩],
                  [⟨"H", .must_be_separate, {2, 3}⟩]⟩)
      ∧ ∀ plan metrics parts,
          generate_optimized_planning ⟨4, 2, 2, 1⟩ 42
              (some ⟨[⟨"G", .must_be_together, {0, 1}⟩],
                     [⟨"H", .must_be_separate, {2, 3}⟩]⟩) parts
            = .ok (plan, metrics) →
          ∀ s ∈ plan.sessions,
            RespectsCohesive s ⟨[⟨"G", .must_be_together, {0, 1}⟩],
                [⟨"H", .must_be_separate, {2, 3}⟩]⟩
              ∧ RespectsExclusive s ⟨[⟨"G", .must_be_together, {0, 1}⟩],
                  [⟨"H", .must_be_separate, {2, 3}⟩]⟩ :=
  plan_rounds_respect_constraints ⟨4, 2, 2, 1⟩ 42
    ⟨[⟨"G", .must_be_together, {0, 1}⟩], [⟨"H", .must_be_separate, {2, 3}⟩]⟩
    (by decide) (by decide)

/-! ## C5: oscillation detection in `enforce_equity` -/

/-- A configuration and plan driving `enforce_equity` into its
oscillation detector: 6 participants, 3 tables, 2 sessions. -/
def oscConfig : PlanningConfig := ⟨6, 3, 6, 2⟩

/-- Input plan for the oscillation scenario: its equity gap is 2, the
loop's targeted swaps then bounce the gap between 2 and 3. -/
def oscPlanning : Planning :=
  ⟨[⟨0, [{2, 3, 4, 5}, {0, 1}, ∅]⟩, ⟨1, [{0, 1}, {2}, {3, 4, 5}]⟩], oscConfig⟩

/-- C5 counterexample: on `oscPlanning` the equity loop observes the gap
sequence `[2,3,2,3,2,3,2,3,2,3]`; at the 10th observation the window
satisfies the oscillation test (2 distinct values, the oldest value `2`
recurring 5 ≥ 3 times), so the loop stops there — and the plan it hands
back has equity gap 3, strictly worse than the gap-2 plans it saw during
the run (the input plan itself among them).  `enforce_equity` keeps no
best-plan-so-far, so the claim that the oscillation exit returns "the
plan with the smallest equity gap observed during the run" is false. -/
theorem enforce_equity_oscillation_not_best_plan :
    (equityLoopFull oscConfig none none 2 1000 oscPlanning []).map
        (fun r => (r.2, (compute_metrics r.1 oscConfig none).map
          PlanningMetrics.equity_gap))
      = .ok ([2, 3, 2, 3, 2, 3, 2, 3, 2, 3], .ok 3)
    ∧ (enforce_equity oscPlanning oscConfig none none 2).map
        (fun q => (compute_metrics q oscConfig none).map PlanningMetrics.equity_gap)
      = .ok (.ok 3)
    ∧ oscillationDetected [2, 3, 2, 3, 2, 3, 2, 3, 2, 3]
    ∧ listMin [2, 3, 2, 3, 2, 3, 2, 3, 2, 3] = 2
    ∧ (2 : ℕ) < 3 := by
  refine ⟨by rfl, ?_, by decide, by rfl, by decide⟩
  rw [enforce_equity, equityLoop_eq_full]
  rfl

/-- C5 amended: when `metrics.equity_gap > 1` and the updated 10-gap
window triggers the oscillation test, the equity loop stops without
raising an error and returns the *current* plan — which theorem
`enforce_equity_oscillation_not_best_plan` shows need not be the
best-gap plan observed during the run. -/
theorem enforce_equity_oscillation_returns_current (config : PlanningConfig)
    (constraints : Option PlanningConstraints)
    (participants : Option (List Participant)) (vip_max_advantage fuel : ℕ)
    (equitable : Planning) (recent_gaps : List ℕ) (metrics : PlanningMetrics)
    (hm : compute_metrics equitable config none = .ok metrics)
    (hgap : 1 < metrics.equity_gap)
    (hdet : oscillationDetected (gapWindow recent_gaps metrics.equity_gap)) :
    equityLoop config constraints participants vip_max_advantage (fuel + 1)
      equitable recent_gaps = .ok equitable := by
  rw [equityLoop_eq_full]
  unfold equityLoopFull
  rw [hm]
  dsimp only
  rw [if_neg (by omega), if_pos hdet]
  rfl

/-- Witness for the amended C5 theorem: a single-session plan with gap 3
and a pre-filled window of nine 3s triggers the detector at once. -/
theorem enforce_equity_oscillation_returns_current_witness :
    equityLoop ⟨5, 3, 5, 1⟩ none none 2 1
        ⟨[⟨0, [{0, 1, 2, 3}, {4}, ∅]⟩], ⟨5, 3, 5, 1⟩⟩ [3, 3, 3, 3, 3, 3, 3, 3, 3]
      = .ok ⟨[⟨0, [{0, 1, 2, 3}, {4}, ∅]⟩], ⟨5, 3, 5, 1⟩⟩ :=
  enforce_equity_oscillation_returns_current ⟨5, 3, 5, 1⟩ none none 2 0
    ⟨[⟨0, [{0, 1, 2, 3}, {4}, ∅]⟩], ⟨5, 3, 5, 1⟩⟩ [3, 3, 3, 3, 3, 3, 3, 3, 3]
    ⟨6, 0, [3, 3, 3, 3, 0], 0, 3, 12 / 5, none⟩ (by rfl) (by decide) (by decide)

/-! ## C10: constraint validation ignores the roster bound -/

/-- Configuration for the out-of-range-identifier scenario: 3
participants, 2 tables of capacity 2, 2 sessions. -/
def cfg10 : PlanningConfig := ⟨3, 2, 2, 2⟩

/-- A Together group naming participant `5`, outside the roster
`{0, 1, 2}` of `cfg10`. -/
def cstr10 : PlanningConstraints := ⟨[⟨"g", .must_be_together, {0, 5}⟩], []⟩

/-- C10: `PlanningConstraints.validate` accepts the group `{0, 5}` with no
error even though `5 ≥ N = 3` (it never compares ids against `N`);
`generate_baseline` then seats `5` in every one of the 2 sessions; and
`compute_metrics` on that plan raises `IndexError` while tallying the
per-person unique-meeting array of length `N`.  The seed is universally
quantified: the outcome is the same for every seed. -/
theorem constraint_validation_ignores_roster_bound :
    validate_config cfg10 = .ok ()
    ∧ cstr10.validate cfg10 = []
    ∧ (∀ seed, (generate_baseline cfg10 seed (some cstr10)).map
          (fun plan => (plan.sessions.length,
            plan.sessions.all (fun s => decide (5 ∈ unionTables s.tables)),
            compute_metrics plan cfg10 none))
        = .ok (2, true, .error .indexError))
    ∧ cfg10.N ≤ 5 := by
  refine ⟨by rfl, by decide, fun seed => ?_, by decide⟩
  rfl

/-! ## C6: table sizes of the baseline -/

/-- Among `0, …, N-1` exactly `⌊N/X⌋` (plus one for the first `N mod X`
residues) indices fall on each residue class mod `X`. -/
theorem countP_range_mod (X k : ℕ) (hX : 0 < X) (hk : k < X) :
    ∀ N : ℕ, (List.range N).countP (fun j => decide (j % X = k))
      = N / X + (if k < N % X then 1 else 0) := by
  intro N
  induction N with
  | zero => simp
  | succ n ih =>
    rw [List.range_succ, List.countP_append, ih]
    have hone : List.countP (fun j => decide (j % X = k)) [n]
        = if n % X = k then 1 else 0 := by
      simp [List.countP_cons]
    rw [hone]
    have hq := Nat.div_add_mod n X
    have hr : n % X < X := Nat.mod_lt _ hX
    set q := n / X with hqdef
    set r := n % X with hrdef
    by_cases hcase : r + 1 = X
    · have hmul : X * (q + 1) = X * q + X := by ring
      have h1 : (n + 1) / X = q + 1 := by
        rw [show n + 1 = X * (q + 1) from by omega]
        exact Nat.mul_div_cancel_left _ hX
      have h2 : (n + 1) % X = 0 := by
        rw [show n + 1 = X * (q + 1) from by omega]
        exact Nat.mul_mod_right X (q + 1)
      rw [h1, h2]
      split_ifs <;> omega
    · have hr1 : r + 1 < X := by omega
      have h1 : (n + 1) / X = q := by
        rw [show n + 1 = X * q + (r + 1) from by omega, Nat.mul_add_div hX,
          Nat.div_eq_of_lt hr1, Nat.add_zero]
      have h2 : (n + 1) % X = r + 1 := by
        rw [show n + 1 = X * q + (r + 1) from by omega, Nat.mul_add_mod,
          Nat.mod_eq_of_lt hr1]
      rw [h1, h2]
      split_ifs <;> omega

/-- Without constraints the round-robin loop sends unit `j` (counting
from `idx`) to table `(idx + j) % X`; over disjoint singleton units the
size of table `k` therefore grows by the number of such indices. -/
theorem assignLoop_none_card (config : PlanningConfig) (hX : 0 < config.X) :
    ∀ (sps : List (Finset ℕ)) (idx : ℕ) (st : List (Finset ℕ) × Bool),
      st.1.length = config.X →
      (∀ sp ∈ sps, sp.card = 1) →
      sps.Pairwise Disjoint →
      (∀ sp ∈ sps, ∀ k, k < config.X → Disjoint sp (st.1.getD k ∅)) →
      ∀ k, k < config.X →
        ((assignLoop config none idx sps st).1.getD k ∅).card
          = (st.1.getD k ∅).card
            + (List.range sps.length).countP
                (fun j => decide ((idx + j) % config.X = k)) := by
  intro sps
  induction sps with
  | nil =>
    intro idx st _ _ _ _ k _
    simp [assignLoop]
  | cons sp rest ih =>
    intro idx st hlen hcard hpair hfresh k hk
    have hpair2 := List.pairwise_cons.mp hpair
    have htid : idx % config.X < config.X := Nat.mod_lt _ hX
    have htid2 : idx % config.X < st.1.length := by rw [hlen]; exact htid
    have hstep : assignLoop config none idx (sp :: rest) st
        = assignLoop config none (idx + 1) rest
            (st.1.set (idx % config.X) (st.1.getD (idx % config.X) ∅ ∪ sp),
             st.2 || false) := rfl
    rw [hstep]
    have hlen2 : (st.1.set (idx % config.X)
        (st.1.getD (idx % config.X) ∅ ∪ sp)).length = config.X := by
      rw [List.length_set]; exact hlen
    have hgd : ∀ m, m < config.X →
        ((st.1.set (idx % config.X) (st.1.getD (idx % config.X) ∅ ∪ sp)).getD m ∅)
          = if m = idx % config.X then st.1.getD (idx % config.X) ∅ ∪ sp
            else st.1.getD m ∅ := by
      intro m hm
      by_cases hmp : m = idx % config.X
      · subst hmp; rw [getD_set_self htid2, if_pos rfl]
      · rw [getD_set_ne (fun h => hmp h.symm), if_neg hmp]
    have hfresh2 : ∀ sp2 ∈ rest, ∀ m, m < config.X →
        Disjoint sp2 ((st.1.set (idx % config.X)
          (st.1.getD (idx % config.X) ∅ ∪ sp)).getD m ∅) := by
      intro sp2 hsp2 m hm
      rw [hgd m hm]
      by_cases hmp : m = idx % config.X
      · rw [if_pos hmp, Finset.disjoint_union_right]
        exact ⟨hfresh sp2 (List.mem_cons_of_mem _ hsp2) _ htid,
          (hpair2.1 sp2 hsp2).symm⟩
      · rw [if_neg hmp]
        exact hfresh sp2 (List.mem_cons_of_mem _ hsp2) m hm
    have hrec := ih (idx + 1)
      (st.1.set (idx % config.X) (st.1.getD (idx % config.X) ∅ ∪ sp), st.2 || false)
      hlen2 (fun sp2 hsp2 => hcard sp2 (List.mem_cons_of_mem _ hsp2))
      hpair2.2 hfresh2 k hk
    rw [hrec, hgd k hk]
    have hcnt : (List.range (sp :: rest).length).countP
          (fun j => decide ((idx + j) % config.X = k))
        = (if idx % config.X = k then 1 else 0)
          + (List.range rest.length).countP
              (fun j => decide ((idx + 1 + j) % config.X = k)) := by
      rw [List.length_cons, List.range_succ_eq_map, List.countP_cons, List.countP_map]
      have hcomp : ((fun j => decide ((idx + j) % config.X = k)) ∘ Nat.succ)
          = fun j => decide ((idx + 1 + j) % config.X = k) := by
        funext j
        simp only [Function.comp]
        rw [show idx + Nat.succ j = idx + 1 + j from by omega]
      rw [hcomp]
      by_cases h0 : idx % config.X = k <;> simp [h0] <;> omega
    rw [hcnt]
    by_cases hkt : k = idx % config.X
    · rw [if_pos hkt, if_pos hkt.symm]
      have hdisj : Disjoint (st.1.getD (idx % config.X) ∅) sp :=
        (hfresh sp (List.mem_cons_self _ _) _ htid).symm
      rw [Finset.card_union_of_disjoint hdisj,
        hcard sp (List.mem_cons_self _ _), hkt]
      omega
    · rw [if_neg hkt, if_neg (fun h => hkt h.symm)]
      omega

/-- One baseline session built from disjoint singleton units gives table
`k` exactly `⌊L/X⌋` members, plus one when `k < L mod X` (`L` the number
of units): the stride rotation permutes the units but not their count. -/
theorem baselineSession_singleton_card (config : PlanningConfig) (sid : ℕ)
    (hX : 0 < config.X) (sps : List (Finset ℕ))
    (hsingle : ∀ sp ∈ sps, sp.card = 1) (hpair : sps.Pairwise Disjoint) :
    ∀ k, k < config.X →
      ((baselineSession config sps none sid).1.getD k ∅).card
        = sps.length / config.X
          + (if k < sps.length % config.X then 1 else 0) := by
  intro k hk
  unfold baselineSession _assign_tables_with_constraints
  set stride := if 1 < sps.length then (sid * 17 + 1) % sps.length else 1 with hstride
  set rotated := sps.drop stride ++ sps.take stride with hrot
  have hperm : rotated.Perm sps := rotate_perm sps stride
  have hsingle2 : ∀ sp ∈ rotated, sp.card = 1 :=
    fun sp hsp => hsingle sp (hperm.mem_iff.mp hsp)
  have hpair2 : rotated.Pairwise Disjoint :=
    (hperm.pairwise_iff (fun {_ _} h => Disjoint.symm h)).mpr hpair
  have hfresh : ∀ sp ∈ rotated, ∀ m, m < config.X →
      Disjoint sp ((List.replicate config.X (∅ : Finset ℕ)).getD m ∅) := by
    intro sp _ m _
    rw [getD_replicate_empty]
    exact Finset.disjoint_empty_right _
  have h := assignLoop_none_card config hX rotated 0
    (List.replicate config.X ∅, false) (by simp) hsingle2 hpair2 hfresh k hk
  rw [h, getD_replicate_empty, Finset.card_empty]
  have hlenrot : rotated.length = sps.length := hperm.length_eq
  rw [hlenrot]
  have hzero : (fun j => decide ((0 + j) % config.X = k))
      = fun j => decide (j % config.X = k) :=
    funext fun j => by rw [Nat.zero_add]
  rw [hzero, countP_range_mod config.X k hX hk sps.length, Nat.zero_add]

/-- Configuration for the unbalanced-tables scenario: 6 participants,
2 tables of capacity 5, 1 session (valid: 2·5 ≥ 6). -/
def cfg6 : PlanningConfig := ⟨6, 2, 5, 1⟩

/-- A valid constraint set for `cfg6`: one Together group of 4 ≤ x = 5. -/
def cstr6 : PlanningConstraints := ⟨[⟨"g", .must_be_together, {0, 1, 2, 3}⟩], []⟩

/-- C6 counterexample: with the valid constraint set `cstr6` the baseline
seats the whole Together group as one atomic unit, producing tables of
sizes 5 and 1 in the only session, while `⌊6/2⌋ = ⌈6/2⌉ = 3`: the claimed
`⌊N/X⌋`/`⌈N/X⌉` size bound fails for a valid configuration with a valid
constraint set. -/
theorem baseline_table_sizes_unbalanced_with_constraints :
    validate_config cfg6 = .ok ()
    ∧ cstr6.validate cfg6 = []
    ∧ (generate_baseline cfg6 0 (some cstr6)).map
        (fun plan => plan.sessions.map fun s => s.tables.map Finset.card)
      = .ok [[5, 1]]
    ∧ cfg6.N / cfg6.X = 3 ∧ (cfg6.N + cfg6.X - 1) / cfg6.X = 3
    ∧ (5 : ℕ) ≠ 3 ∧ (1 : ℕ) ≠ 3 :=
  ⟨rfl, by decide, by rfl, rfl, rfl, by decide, by decide⟩

/-- C6 amended: in the constraint-free case the claim holds — every table
of every session of a successfully generated baseline has exactly
`⌊N/X⌋` or `⌈N/X⌉ = (N+X-1)/X` members. -/
theorem generate_baseline_table_sizes (config : PlanningConfig) (seed : ℕ)
    (plan : Planning) (h : generate_baseline config seed none = .ok plan) :
    ∀ s ∈ plan.sessions, ∀ t ∈ s.tables,
      t.card = config.N / config.X
      ∨ t.card = (config.N + config.X - 1) / config.X := by
  obtain ⟨hval, -, rfl⟩ := generate_baseline_ok_inversion h
  obtain ⟨hN, hX, -, -, -⟩ := validate_config_ok_facts hval
  intro s hs t ht
  obtain ⟨sid, -, rfl⟩ := List.mem_map.mp hs
  have hsingle : ∀ sp ∈ _create_super_participants config.N none, sp.card = 1 := by
    intro sp hsp
    unfold _create_super_participants at hsp
    obtain ⟨i, -, rfl⟩ := List.mem_map.mp hsp
    exact Finset.card_singleton i
  have hpair : (_create_super_participants config.N none).Pairwise Disjoint := by
    unfold _create_super_participants
    exact singletons_pairwise_disjoint (List.nodup_range config.N)
  have hspslen : (_create_super_participants config.N none).length = config.N := by
    unfold _create_super_participants
    simp
  obtain ⟨hlen, -, -, -⟩ := baselineSession_facts config none sid hX
    (_create_super_participants config.N none) hpair
  dsimp only at ht
  obtain ⟨i, hi, hti⟩ := List.mem_iff_getElem.mp ht
  have htD : (baselineSession config (_create_super_participants config.N none)
      none sid).1.getD i ∅ = t := by
    rw [List.getD_eq_getElem?_getD, List.getElem?_eq_getElem hi, hti]
    rfl
  have hiX : i < config.X := by rw [← hlen]; exact hi
  have hcardt := baselineSession_singleton_card config sid hX
    (_create_super_participants config.N none) hsingle hpair i hiX
  rw [htD, hspslen] at hcardt
  by_cases hrem : i < config.N % config.X
  · right
    rw [hcardt, if_pos hrem]
    have hq := Nat.div_add_mod config.N config.X
    have hrlt : config.N % config.X < config.X := Nat.mod_lt _ hX
    set q := config.N / config.X with hqdef
    set r := config.N % config.X with hrdef
    have hmul : config.X * (q + 1) = config.X * q + config.X := by ring
    rw [show config.N + config.X - 1 = config.X * (q + 1) + (r - 1) from by omega,
      Nat.mul_add_div hX, Nat.div_eq_of_lt (by omega)]
  · left
    rw [hcardt, if_neg hrem, Nat.add_zero]

/-- The baseline plan of the constraint-free configuration
`N = 4, X = 2, x = 2, S = 1`, used to instantiate the amended C6
theorem. -/
def basePlanW : Planning :=
  match generate_baseline ⟨4, 2, 2, 1⟩ 0 none with
  | .ok p => p
  | .error _ => ⟨[], ⟨4, 2, 2, 1⟩⟩

/-- Witness instantiating `generate_baseline_table_sizes` on the concrete
baseline `basePlanW` (first table of its only session). -/
theorem generate_baseline_table_sizes_witness :
    ((basePlanW.sessions.getD 0 ⟨0, []⟩).tables.getD 0 ∅).card = (4 : ℕ) / 2
    ∨ ((basePlanW.sessions.getD 0 ⟨0, []⟩).tables.getD 0 ∅).card
        = (4 + 2 - 1) / 2 :=
  generate_baseline_table_sizes ⟨4, 2, 2, 1⟩ 0 basePlanW (by rfl)
    (basePlanW.sessions.getD 0 ⟨0, []⟩) (by decide)
    ((basePlanW.sessions.getD 0 ⟨0, []⟩).tables.getD 0 ∅) (by decide)

/-! ## C8: constraint validation errors and `generate_baseline` -/

/-- An invalid configuration (`N = 1 < 2`) paired with an empty — hence
error-free — constraint set. -/
def cfg8 : PlanningConfig := ⟨1, 1, 2, 1⟩

/-- The empty constraint set: `validate` returns `[]` on it for every
configuration. -/
def cstr8 : PlanningConstraints := ⟨[], []⟩

/-- C8 counterexample: `generate_baseline` raises
`InvalidConfigurationError` on `cfg8` although `cstr8.validate` returns
the empty error list — the raise comes from the embedded
`validate_config` call, so "raises iff the constraint error list is
non-empty" is false as stated; it only holds once the configuration
itself is valid. -/
theorem generate_baseline_error_with_empty_constraint_errors :
    cstr8.validate cfg8 = []
    ∧ generate_baseline cfg8 0 (some cstr8) = .error .invalidConfiguration :=
  ⟨rfl, rfl⟩

/-- "Some participant belongs to more than one Together group" is
exactly the failure of pairwise disjointness of the cohesive groups. -/
theorem not_pairwise_disjoint_iff_multi (l : List GroupConstraint) :
    ¬ l.Pairwise (fun g h => Disjoint g.participant_ids h.participant_ids)
    ↔ ∃ p : ℕ, 2 ≤ l.countP (fun g => decide (p ∈ g.participant_ids)) := by
  induction l with
  | nil => simp
  | cons g rest ih =>
    rw [List.pairwise_cons]
    constructor
    · intro h
      rw [not_and_or] at h
      rcases h with h | h
      · push_neg at h
        obtain ⟨hgrp, hmem, hnd⟩ := h
        obtain ⟨p, hp1, hp2⟩ := Finset.not_disjoint_iff.mp hnd
        refine ⟨p, ?_⟩
        rw [List.countP_cons]
        simp [hp1]
        exact ⟨hgrp, hmem, hp2⟩
      · obtain ⟨p, hp⟩ := ih.mp h
        refine ⟨p, ?_⟩
        rw [List.countP_cons]
        omega
    · rintro ⟨p, hp⟩
      by_cases hpg : p ∈ g.participant_ids
      · simp [List.countP_cons, hpg] at hp
        obtain ⟨h2grp, hmem, hph⟩ := hp
        intro hcontra
        exact Finset.not_disjoint_iff.mpr ⟨p, hpg, hph⟩ (hcontra.1 h2grp hmem)
      · simp [List.countP_cons, hpg] at hp
        intro hcontra
        exact (ih.mpr ⟨p, hp⟩) hcontra.2

/-- C8 amended: the first half of the claim is exact —
`PlanningConstraints.validate` returns a non-empty list iff a Together
group exceeds the capacity `x`, a participant lies in ≥ 2 Together
groups, or ≥ 2 members of one Together group share one Separate group.
The second half needs the extra hypothesis that the configuration itself
is valid (counterexample `generate_baseline_error_with_empty_constraint_errors`):
then `generate_baseline` raises `InvalidConfigurationError` iff the list
is non-empty, and the raise happens before any plan is built. -/
theorem validate_error_characterization (c : PlanningConstraints)
    (config : PlanningConfig) (seed : ℕ) :
    (c.validate config ≠ [] ↔
      (∃ g ∈ c.cohesive_groups, config.x < g.participant_ids.card)
      ∨ (∃ p : ℕ, 2 ≤ c.cohesive_groups.countP
          (fun g => decide (p ∈ g.participant_ids)))
      ∨ (∃ eg ∈ c.exclusive_groups, ∃ cg ∈ c.cohesive_groups,
          1 < (eg.participant_ids ∩ cg.participant_ids).card))
    ∧ (validate_config config = .ok () →
        (generate_baseline config seed (some c) = .error .invalidConfiguration
          ↔ c.validate config ≠ [])) := by
  constructor
  · rw [ne_eq, validate_nil_iff, not_and_or, not_and_or]
    refine or_congr ?_ (or_congr ?_ ?_)
    · simp only [not_forall, not_le, exists_prop]
    · exact not_pairwise_disjoint_iff_multi c.cohesive_groups
    · simp only [not_forall, not_le, exists_prop]
  · intro hval
    constructor
    · intro herr hn
      unfold generate_baseline at herr
      rw [hval] at herr
      dsimp only at herr
      rw [hn] at herr
      simp only [List.isEmpty_nil, if_true] at herr
      cases herr
    · intro hne
      unfold generate_baseline
      rw [hval]
      dsimp only
      cases hc : c.validate config with
      | nil => exact absurd hc hne
      | cons e rest => simp only [List.isEmpty_cons, Bool.false_eq_true, if_false]

/-- Witness for the amended C8 theorem at the valid configuration
`N = 4, X = 2, x = 2, S = 1` with one oversized Together group
`{0, 1, 2}` (3 > x = 2). -/
theorem validate_error_characterization_witness :
    generate_baseline ⟨4, 2, 2, 1⟩ 7
        (some ⟨[⟨"g", .must_be_together, {0, 1, 2}⟩], []⟩)
      = .error .invalidConfiguration
    ↔ PlanningConstraints.validate ⟨[⟨"g", .must_be_together, {0, 1, 2}⟩], []⟩
        ⟨4, 2, 2, 1⟩ ≠ [] :=
  (validate_error_characterization ⟨[⟨"g", .must_be_together, {0, 1, 2}⟩], []⟩
    ⟨4, 2, 2, 1⟩ 7).2 (by rfl)
